import Mathlib

/-!
Verification of the obsidibear bidirectional sync engine.

This file gives a shallow embedding, in Lean 4, of the Python modules
`sync_state.py`, `markdown.py`, `filenames.py`, `attachments.py`,
`exporter.py` and `pusher.py`, and proves (or refutes) the behavioural
claims made about them.

Modelling conventions, used uniformly below:

* A Python `dict` keyed by strings is modelled as an association list
  `SMap α := List (String × α)` whose entry order is the dict's
  insertion order; lookups return the first match (for the well-formed,
  duplicate-free maps the program builds this coincides with dict
  lookup, and key-uniqueness hypotheses are stated where relevant).
* Updating `d[k] = v` is `SMap.upsert`: the value is replaced in place
  when the key is present (Python dicts keep the original insertion
  position) and appended otherwise.
* The vault file tree is a map from path strings to file contents;
  attachment blobs are modelled as strings, with `String.length`
  standing for the on-disk size used by the attachment copier.
* The SHA-256 fingerprint `content_hash` is kept abstract: every
  orchestrator takes an arbitrary `hash : String → String` parameter,
  so no proof can rely on properties a real digest does not have.
* Per-note exceptions (file-system write errors, failed write-backs)
  are environment oracles (`writeFails`, `pushOk`), raised at the
  side-effecting call they model.
-/

/-- Association-list model of a Python `dict` keyed by strings:
entries are kept in insertion order. -/
abbrev SMap (α : Type) : Type := List (String × α)

namespace SMap

/-- `d.get(k)`: the first entry with key `k` (Python dicts have unique
keys, so first match equals dict lookup on well-formed maps). -/
def lookup (m : SMap α) (k : String) : Option α :=
  match m with
  | [] => none
  | p :: rest => if p.1 = k then some p.2 else lookup rest k

/-- Key list of the map, in entry order. -/
def keysOf (m : SMap α) : List String :=
  m.map Prod.fst

/-- `d[k] = v`: replace in place when the key is present (Python dicts
keep the original insertion position), append otherwise. -/
def upsert (m : SMap α) (k : String) (v : α) : SMap α :=
  if k ∈ keysOf m then
    m.map (fun p => if p.1 = k then (p.1, v) else p)
  else
    m ++ [(k, v)]

/-- Apply a sequence of `d[k] = v` updates in order. -/
def applyAll (m : SMap α) (us : List (String × α)) : SMap α :=
  us.foldl (fun acc p => upsert acc p.1 p.2) m

/-- The value stored for `k` by the last update mentioning `k`. -/
def lastVal (us : List (String × α)) (k : String) : Option α :=
  match us with
  | [] => none
  | p :: rest =>
    match lastVal rest k with
    | some v => some v
    | none => if p.1 = k then some p.2 else none

theorem lookup_eq_none_iff (m : SMap α) (k : String) :
    lookup m k = none ↔ k ∉ keysOf m := by
  induction m with
  | nil => simp [lookup, keysOf]
  | cons p rest ih =>
    simp only [lookup, keysOf, List.map_cons, List.mem_cons]
    by_cases h : p.1 = k
    · simp [h]
    · have : ¬ k = p.1 := fun hk => h hk.symm
      simp [h, this, ih, keysOf]

theorem lookup_isSome_iff (m : SMap α) (k : String) :
    (lookup m k).isSome ↔ k ∈ keysOf m := by
  rw [← Decidable.not_iff_not, ← lookup_eq_none_iff m k]
  cases lookup m k <;> simp

theorem lookup_eq_none_of_not_mem {m : SMap α} {k : String}
    (h : k ∉ keysOf m) : lookup m k = none :=
  (lookup_eq_none_iff m k).2 h

theorem mem_keysOf_of_lookup_eq_some {m : SMap α} {k : String} {v : α}
    (h : lookup m k = some v) : k ∈ keysOf m := by
  by_contra hc
  rw [lookup_eq_none_of_not_mem hc] at h
  cases h

theorem mem_of_lookup_eq_some {m : SMap α} {k : String} {v : α}
    (h : lookup m k = some v) : (k, v) ∈ m := by
  induction m with
  | nil => simp [lookup] at h
  | cons p rest ih =>
    simp only [lookup] at h
    by_cases hp : p.1 = k
    · rw [if_pos hp] at h
      injection h with h
      exact List.mem_cons.2 (Or.inl (by cases p; simp_all))
    · rw [if_neg hp] at h
      exact List.mem_cons_of_mem _ (ih h)

theorem lookup_eq_some_of_mem_of_nodup {m : SMap α} {k : String} {v : α}
    (hn : (keysOf m).Nodup) (h : (k, v) ∈ m) : lookup m k = some v := by
  induction m with
  | nil => simp at h
  | cons p rest ih =>
    simp only [keysOf, List.map_cons, List.nodup_cons] at hn
    rcases List.mem_cons.1 h with h1 | h1
    · subst h1; simp [lookup]
    · have hk : p.1 ≠ k := by
        intro he
        exact hn.1 (he ▸ (List.mem_map.2 ⟨(k, v), h1, rfl⟩))
      simp only [lookup, if_neg hk]
      exact ih hn.2 h1

theorem keysOf_upsert_of_mem {m : SMap α} {k : String} (v : α)
    (h : k ∈ keysOf m) : keysOf (upsert m k v) = keysOf m := by
  unfold upsert
  rw [if_pos h]
  simp only [keysOf, List.map_map]
  apply List.map_congr_left
  intro p _
  by_cases hp : p.1 = k <;> simp [hp]

theorem keysOf_upsert_of_not_mem {m : SMap α} {k : String} (v : α)
    (h : k ∉ keysOf m) : keysOf (upsert m k v) = keysOf m ++ [k] := by
  unfold upsert
  rw [if_neg h]
  simp [keysOf]

theorem mem_keysOf_upsert {m : SMap α} {k k' : String} (v : α) :
    k' ∈ keysOf (upsert m k v) ↔ k' ∈ keysOf m ∨ k' = k := by
  by_cases h : k ∈ keysOf m
  · rw [keysOf_upsert_of_mem v h]
    constructor
    · exact Or.inl
    · rintro (h1 | rfl)
      · exact h1
      · exact h
  · rw [keysOf_upsert_of_not_mem v h]
    simp

theorem nodup_keysOf_upsert {m : SMap α} {k : String} (v : α)
    (hn : (keysOf m).Nodup) : (keysOf (upsert m k v)).Nodup := by
  by_cases h : k ∈ keysOf m
  · rwa [keysOf_upsert_of_mem v h]
  · rw [keysOf_upsert_of_not_mem v h]
    simpa [List.nodup_append] using ⟨hn, h⟩

theorem lookup_map_replace (rest : SMap α) (k k' : String) (v : α) :
    lookup (rest.map (fun p => if p.1 = k then (p.1, v) else p)) k' =
      if k = k' then (if k ∈ keysOf rest then some v else none)
      else lookup rest k' := by
  induction rest with
  | nil => by_cases hk : k = k' <;> simp [lookup, hk, keysOf]
  | cons p rest ih =>
    have hcons : keysOf (p :: rest) = p.1 :: keysOf rest := rfl
    by_cases hp : p.1 = k
    · by_cases hk : k = k'
      · subst hk
        have hmem : k ∈ keysOf (p :: rest) := by
          rw [hcons]; exact List.mem_cons.2 (Or.inl hp.symm)
        rw [if_pos rfl, if_pos hmem]
        simp [lookup, hp]
      · have hpk : ¬ p.1 = k' := fun he => hk (hp ▸ he)
        rw [if_neg hk]
        simp only [List.map_cons, if_pos hp, lookup, if_neg hpk, ih,
          if_neg hk]
    · by_cases hpk : p.1 = k'
      · have hk : ¬ k = k' := fun he => hp (he ▸ hpk)
        rw [if_neg hk]
        simp only [List.map_cons, if_neg hp, lookup, if_pos hpk]
      · simp only [List.map_cons, if_neg hp, lookup, if_neg hpk, ih]
        by_cases hk : k = k'
        · subst hk
          have hne : ¬ k = p.1 := fun he => hp he.symm
          rw [if_pos rfl, if_pos rfl]
          by_cases hm : k ∈ keysOf rest
          · rw [if_pos hm,
              if_pos (show k ∈ keysOf (p :: rest) by
                rw [hcons]; exact List.mem_cons_of_mem _ hm)]
          · rw [if_neg hm,
              if_neg (show k ∉ keysOf (p :: rest) by
                rw [hcons]; simp [hne, hm])]
        · rw [if_neg hk, if_neg hk]

theorem lookup_upsert (m : SMap α) (k k' : String) (v : α) :
    lookup (upsert m k v) k' = if k = k' then some v else lookup m k' := by
  by_cases hmem : k ∈ keysOf m
  · unfold upsert
    rw [if_pos hmem, lookup_map_replace]
    simp [hmem]
  · unfold upsert
    rw [if_neg hmem]
    induction m with
    | nil => by_cases hk : k = k' <;> simp [lookup, hk]
    | cons p rest ih =>
      simp only [keysOf, List.map_cons, List.mem_cons, not_or] at hmem
      have hrest := ih (by simp [keysOf, hmem.2])
      by_cases hpk : p.1 = k'
      · have hk : ¬ k = k' := fun he => hmem.1 (he ▸ hpk.symm ▸ rfl)
        simp [lookup, hpk, hk]
      · simp only [List.cons_append, lookup, if_neg hpk]
        exact hrest

theorem lookup_applyAll (m : SMap α) (us : List (String × α)) (k : String) :
    lookup (applyAll m us) k =
      match lastVal us k with
      | some v => some v
      | none => lookup m k := by
  induction us generalizing m with
  | nil => simp [applyAll, lastVal]
  | cons p rest ih =>
    show lookup (applyAll (upsert m p.1 p.2) rest) k = _
    rw [ih]
    simp only [lastVal]
    cases lastVal rest k with
    | some v => simp
    | none =>
      simp only [lookup_upsert]
      by_cases hp : p.1 = k <;> simp [hp]

theorem lastVal_eq_none_of_not_mem {us : List (String × α)} {k : String}
    (h : k ∉ us.map Prod.fst) : lastVal us k = none := by
  induction us with
  | nil => rfl
  | cons p rest ih =>
    simp only [List.map_cons, List.mem_cons, not_or] at h
    have hp : ¬ p.1 = k := fun he => h.1 he.symm
    simp only [lastVal, ih h.2]
    simp [hp]

theorem lookup_applyAll_of_not_mem (m : SMap α) {us : List (String × α)}
    {k : String} (h : k ∉ us.map Prod.fst) :
    lookup (applyAll m us) k = lookup m k := by
  rw [lookup_applyAll, lastVal_eq_none_of_not_mem h]

theorem mem_keysOf_applyAll (m : SMap α) (us : List (String × α)) (k : String) :
    k ∈ keysOf (applyAll m us) ↔ k ∈ keysOf m ∨ k ∈ us.map Prod.fst := by
  induction us generalizing m with
  | nil => simp [applyAll]
  | cons p rest ih =>
    show k ∈ keysOf (applyAll (upsert m p.1 p.2) rest) ↔ _
    rw [ih]
    simp only [mem_keysOf_upsert, List.map_cons, List.mem_cons]
    tauto

theorem nodup_keysOf_applyAll (m : SMap α) (us : List (String × α))
    (hn : (keysOf m).Nodup) : (keysOf (applyAll m us)).Nodup := by
  induction us generalizing m with
  | nil => exact hn
  | cons p rest ih =>
    exact ih _ (nodup_keysOf_upsert _ hn)

/-- Replace each entry's value by the last value a sequence of updates
assigns to its key (identity on untouched keys). -/
def substLast (us : List (String × α)) (p : String × α) : String × α :=
  match lastVal us p.1 with
  | some v => (p.1, v)
  | none => p

theorem applyAll_eq_map_substLast (us : List (String × α)) (m : SMap α)
    (h : ∀ q ∈ us, q.1 ∈ keysOf m) :
    applyAll m us = m.map (substLast us) := by
  induction us generalizing m with
  | nil =>
    show m = _
    have hid : ∀ p ∈ m, substLast ([] : List (String × α)) p = p := by
      intro p _
      rfl
    rw [List.map_congr_left hid]
    simp
  | cons q rest ih =>
    have hq : q.1 ∈ keysOf m := h q (List.mem_cons_self _ _)
    show applyAll (upsert m q.1 q.2) rest = _
    have hkeys : keysOf (upsert m q.1 q.2) = keysOf m :=
      keysOf_upsert_of_mem _ hq
    rw [ih (upsert m q.1 q.2) (fun r hr => hkeys ▸ h r (List.mem_cons_of_mem _ hr))]
    simp only [upsert, if_pos hq, List.map_map]
    apply List.map_congr_left
    intro p _
    simp only [Function.comp_apply, substLast, lastVal]
    by_cases hp : p.1 = q.1
    · simp only [if_pos hp, hp]
      cases hrv : lastVal rest q.1 <;> simp [hrv]
    · have hqp : ¬ q.1 = p.1 := fun he => hp he.symm
      simp only [if_neg hp]
      cases hrv : lastVal rest p.1 <;> simp [hrv, hqp]

/-- Replaying the same sequence of updates a second time leaves the map
unchanged (dict update with the values it already holds is a no-op). -/
theorem applyAll_replay (m : SMap α) (us : List (String × α))
    (hn : (keysOf m).Nodup) :
    applyAll (applyAll m us) us = applyAll m us := by
  have hkeys : ∀ q ∈ us, q.1 ∈ keysOf (applyAll m us) := by
    intro q hq
    rw [mem_keysOf_applyAll]
    exact Or.inr (List.mem_map.2 ⟨q, hq, rfl⟩)
  rw [applyAll_eq_map_substLast us _ hkeys]
  have hnod : (keysOf (applyAll m us)).Nodup := nodup_keysOf_applyAll m us hn
  have hfix : ∀ p ∈ applyAll m us, substLast us p = p := by
    intro p hp
    simp only [substLast]
    cases hlv : lastVal us p.1 with
    | none => rfl
    | some v =>
      have hl : lookup (applyAll m us) p.1 = some p.2 :=
        lookup_eq_some_of_mem_of_nodup hnod hp
      rw [lookup_applyAll, hlv] at hl
      injection hl with hl
      cases p
      simp_all
  rw [List.map_congr_left hfix]
  simp

end SMap

/-! ### String utilities shared by several modules -/

/-- Python `str.lower()` restricted to the ASCII range (the only case
folding the program's inputs exercise). -/
def lowerStr (s : String) : String :=
  ⟨s.data.map Char.toLower⟩

/-- `pathlib`'s `/` operator on already-normalized path strings. -/
def pathJoin (a b : String) : String :=
  a ++ "/" ++ b

/-- Decimal digit character, as produced by Python's `str`/`strftime`
formatting. -/
def digitCharOf : Nat → Char
  | 0 => '0'
  | 1 => '1'
  | 2 => '2'
  | 3 => '3'
  | 4 => '4'
  | 5 => '5'
  | 6 => '6'
  | 7 => '7'
  | 8 => '8'
  | _ => '9'

theorem digitCharOf_ne_nl (d : Nat) : digitCharOf d ≠ '\n' := by
  unfold digitCharOf
  split <;> decide

theorem digitCharOf_toLower (d : Nat) :
    Char.toLower (digitCharOf d) = digitCharOf d := by
  unfold digitCharOf
  split <;> decide

theorem digitCharOf_inj : ∀ d₁ < 10, ∀ d₂ < 10,
    digitCharOf d₁ = digitCharOf d₂ → d₁ = d₂ := by decide

/-- Digit-emitting loop behind `natReprChars` (fuel-based so the
kernel can evaluate it; the fuel `n + 1` always suffices). -/
def natToDigitsAux : Nat → Nat → List Char → List Char
  | 0, _, acc => acc
  | fuel + 1, n, acc =>
    let acc' := digitCharOf (n % 10) :: acc
    if n < 10 then acc' else natToDigitsAux fuel (n / 10) acc'

/-- Characters of Python `str(n)` for a natural number: decimal digits,
most significant first. -/
def natReprChars (n : Nat) : List Char :=
  natToDigitsAux (n + 1) n []

theorem natToDigitsAux_eq_digits : ∀ fuel n acc, 0 < n → n < fuel →
    natToDigitsAux fuel n acc =
      ((Nat.digits 10 n).map digitCharOf).reverse ++ acc := by
  intro fuel
  induction fuel with
  | zero => intro n acc _ h; omega
  | succ fuel ih =>
    intro n acc hn hlt
    by_cases hsmall : n < 10
    · have hdig : Nat.digits 10 n = [n] := by
        rw [Nat.digits_def' (by norm_num : 1 < 10) hn]
        rw [Nat.mod_eq_of_lt hsmall, Nat.div_eq_of_lt hsmall]
        simp
      show (if n < 10 then digitCharOf (n % 10) :: acc
        else natToDigitsAux fuel (n / 10) (digitCharOf (n % 10) :: acc)) = _
      rw [if_pos hsmall, hdig, Nat.mod_eq_of_lt hsmall]
      simp
    · have hq : 0 < n / 10 := Nat.div_pos (Nat.le_of_not_lt hsmall) (by norm_num)
      have hqlt : n / 10 < fuel := by
        have h1 : n / 10 < n := Nat.div_lt_self hn (by norm_num)
        omega
      show (if n < 10 then digitCharOf (n % 10) :: acc
        else natToDigitsAux fuel (n / 10) (digitCharOf (n % 10) :: acc)) = _
      rw [if_neg hsmall, ih _ _ hq hqlt,
        Nat.digits_def' (by norm_num : 1 < 10) hn]
      simp

theorem natReprChars_eq (n : Nat) :
    natReprChars n =
      if n = 0 then ['0'] else ((Nat.digits 10 n).map digitCharOf).reverse := by
  by_cases h0 : n = 0
  · subst h0
    rfl
  · rw [if_neg h0]
    unfold natReprChars
    rw [natToDigitsAux_eq_digits (n + 1) n [] (Nat.pos_of_ne_zero h0) (by omega)]
    simp

/-- Python `str(n)` for a natural number. -/
def natRepr (n : Nat) : String :=
  ⟨natReprChars n⟩

theorem natReprChars_mem {n : Nat} {c : Char} (h : c ∈ natReprChars n) :
    ∃ d, c = digitCharOf d := by
  rw [natReprChars_eq] at h
  by_cases h0 : n = 0
  · rw [if_pos h0] at h
    simp only [List.mem_singleton] at h
    exact ⟨0, h⟩
  · rw [if_neg h0, List.mem_reverse] at h
    obtain ⟨d, _, rfl⟩ := List.mem_map.1 h
    exact ⟨d, rfl⟩

theorem natReprChars_ne_nl {n : Nat} {c : Char} (h : c ∈ natReprChars n) :
    c ≠ '\n' := by
  obtain ⟨d, rfl⟩ := natReprChars_mem h
  exact digitCharOf_ne_nl d

theorem map_digitCharOf_inj : ∀ l₁ l₂ : List Nat,
    (∀ d ∈ l₁, d < 10) → (∀ d ∈ l₂, d < 10) →
    l₁.map digitCharOf = l₂.map digitCharOf → l₁ = l₂ := by
  intro l₁
  induction l₁ with
  | nil =>
    intro l₂ _ _ h
    cases l₂ with
    | nil => rfl
    | cons b bs => simp at h
  | cons a as ih =>
    intro l₂ h₁ h₂ h
    cases l₂ with
    | nil => simp at h
    | cons b bs =>
      simp only [List.map_cons, List.cons.injEq] at h
      have hab : a = b :=
        digitCharOf_inj a (h₁ a (List.mem_cons_self _ _))
          b (h₂ b (List.mem_cons_self _ _)) h.1
      have htail : as = bs :=
        ih bs (fun d hd => h₁ d (List.mem_cons_of_mem _ hd))
          (fun d hd => h₂ d (List.mem_cons_of_mem _ hd)) h.2
      rw [hab, htail]

theorem natReprChars_inj {m n : Nat}
    (h : natReprChars m = natReprChars n) : m = n := by
  have hsingle : ∀ k : Nat, k ≠ 0 → natReprChars k ≠ ['0'] := by
    intro k hk hcon
    rw [natReprChars_eq, if_neg hk] at hcon
    have hne : Nat.digits 10 k ≠ [] := Nat.digits_ne_nil_iff_ne_zero.mpr hk
    have hrev : (Nat.digits 10 k).map digitCharOf = ['0'] := by
      have := congrArg List.reverse hcon
      simpa using this
    have hlen : (Nat.digits 10 k).length = 1 := by
      have := congrArg List.length hrev
      simpa using this
    obtain ⟨d, hd⟩ := List.length_eq_one.1 hlen
    rw [hd] at hrev
    simp only [List.map_cons, List.map_nil, List.cons.injEq] at hrev
    have hd10 : d < 10 := Nat.digits_lt_base (by norm_num) (by rw [hd]; simp)
    have hd0 : d = 0 := digitCharOf_inj d hd10 0 (by norm_num) (by simpa using hrev.1)
    have hk0 : k = 0 := by
      have h1 := Nat.ofDigits_digits 10 k
      rw [hd, hd0] at h1
      simpa [Nat.ofDigits] using h1.symm
    exact hk hk0
  by_cases hm : m = 0
  · by_cases hn : n = 0
    · rw [hm, hn]
    · exfalso
      apply hsingle n hn
      rw [← h, natReprChars_eq, if_pos hm]
  · by_cases hn : n = 0
    · exfalso
      apply hsingle m hm
      rw [h, natReprChars_eq, if_pos hn]
    · rw [natReprChars_eq, natReprChars_eq, if_neg hm, if_neg hn] at h
      have hmap : (Nat.digits 10 m).map digitCharOf =
          (Nat.digits 10 n).map digitCharOf := by
        have := congrArg List.reverse h
        simpa using this
      have hdig : Nat.digits 10 m = Nat.digits 10 n :=
        map_digitCharOf_inj _ _
          (fun d hd => Nat.digits_lt_base (by norm_num) hd)
          (fun d hd => Nat.digits_lt_base (by norm_num) hd) hmap
      have := congrArg (Nat.ofDigits 10) hdig
      rwa [Nat.ofDigits_digits, Nat.ofDigits_digits] at this

theorem natRepr_inj {m n : Nat} (h : natRepr m = natRepr n) : m = n := by
  apply natReprChars_inj
  have := congrArg String.data h
  simpa [natRepr] using this

/-! ### Substring search (Python `str.find`) -/

/-- Scan `l` for the first position (counted from `i`) where `sub` is a
prefix; mirrors the scan `str.find` performs. -/
def findSubAux (sub : List Char) : List Char → Nat → Option Nat
  | [], i => if sub.isEmpty then some i else none
  | c :: rest, i =>
    if sub.isPrefixOf (c :: rest) then some i else findSubAux sub rest (i + 1)

/-- Python `s.find(sub, start)`: index (in characters) of the first
occurrence of `sub` in `s` at or after `start`, `none` when absent. -/
def findSubFrom (s sub : List Char) (start : Nat) : Option Nat :=
  findSubAux sub (s.drop start) start

theorem findSubAux_of_isPrefixOf {sub l : List Char} (i : Nat)
    (h : sub.isPrefixOf l = true) : findSubAux sub l i = some i := by
  cases l with
  | nil =>
    have : sub = [] := by
      cases sub with
      | nil => rfl
      | cons a as => simp [List.isPrefixOf] at h
    simp [findSubAux, this, List.isEmpty]
  | cons c rest => simp [findSubAux, h]

theorem findSubAux_append {sub : List Char} (a b : List Char) (i : Nat)
    (h : ∀ k, k < a.length → ¬ (sub.isPrefixOf ((a ++ b).drop k) = true)) :
    findSubAux sub (a ++ b) i = findSubAux sub b (i + a.length) := by
  induction a generalizing i with
  | nil => simp
  | cons c a' ih =>
    have hnot : ¬ (sub.isPrefixOf (c :: (a' ++ b)) = true) := by
      have := h 0 (by simp)
      simpa using this
    show findSubAux sub (c :: (a' ++ b)) i = _
    cases sub with
    | nil => exact absurd (by simp [List.isPrefixOf]) hnot
    | cons s ss =>
      rw [findSubAux, if_neg hnot]
      have hrec := ih (i + 1) (fun k hk => by
        have := h (k + 1) (by simpa using Nat.succ_lt_succ hk)
        simpa using this)
      rw [hrec]
      congr 1
      simp only [List.length_cons]
      omega

theorem findSubAux_eq_none {sub : List Char} (l : List Char) (i : Nat)
    (hsub : sub ≠ [])
    (h : ∀ k, ¬ (sub.isPrefixOf (l.drop k) = true)) :
    findSubAux sub l i = none := by
  induction l generalizing i with
  | nil =>
    cases sub with
    | nil => exact absurd rfl hsub
    | cons s ss => simp [findSubAux, List.isEmpty]
  | cons c rest ih =>
    have h0 : ¬ (sub.isPrefixOf (c :: rest) = true) := by
      have := h 0
      simpa using this
    rw [findSubAux, if_neg h0]
    exact ih (i + 1) (fun k => by
      have := h (k + 1)
      simpa using this)

/-! ### Python `str.replace` on character lists -/

/-- Scanning loop of `replaceSub`, fuel-based so the kernel can
evaluate it (each step consumes at least one character, so fuel
`s.length + 1` always suffices and the exhaustion branch is
unreachable). -/
def replaceSubAux (pat rep : List Char) : Nat → List Char → List Char
  | 0, s => s
  | fuel + 1, s =>
    match s with
    | [] => []
    | c :: rest =>
      if pat ≠ [] ∧ pat.isPrefixOf (c :: rest) then
        rep ++ replaceSubAux pat rep fuel ((c :: rest).drop pat.length)
      else
        c :: replaceSubAux pat rep fuel rest

/-- Python `s.replace(pat, rep)`: replace non-overlapping occurrences
left to right (identity for the empty pattern, which the program never
passes). -/
def replaceSub (s pat rep : List Char) : List Char :=
  replaceSubAux pat rep (s.length + 1) s

/-! ### The "newline never immediately followed by a dash" invariant -/

/-- No `'\n'` in the list is immediately followed by `'-'` (scanned as
a sliding window of width two). -/
def noNlDash : List Char → Bool
  | [] => true
  | [_] => true
  | a :: b :: rest => !(a == '\n' && b == '-') && noNlDash (b :: rest)

theorem noNlDash_tail {c : Char} {l : List Char}
    (h : noNlDash (c :: l) = true) : noNlDash l = true := by
  cases l with
  | nil => rfl
  | cons b rest =>
    have hh := h
    unfold noNlDash at hh
    rw [Bool.and_eq_true] at hh
    exact hh.2

theorem noNlDash_of_no_nl {l : List Char} (h : ∀ c ∈ l, c ≠ '\n') :
    noNlDash l = true := by
  induction l with
  | nil => rfl
  | cons a l ih =>
    cases l with
    | nil => rfl
    | cons b rest =>
      have ha : a ≠ '\n' := h a (List.mem_cons_self _ _)
      unfold noNlDash
      rw [Bool.and_eq_true]
      constructor
      · simp [ha]
      · exact ih (fun c hc => h c (List.mem_cons_of_mem _ hc))

theorem getLast?_ne_nl_of_no_nl {l : List Char} (h : ∀ c ∈ l, c ≠ '\n') :
    l.getLast? ≠ some '\n' := by
  intro hcon
  obtain ⟨hne, heq⟩ := @List.mem_getLast?_eq_getLast _ l '\n' hcon
  exact h '\n' (heq ▸ List.getLast_mem hne) rfl

theorem noNlDash_append {a b : List Char}
    (ha : noNlDash a = true) (hb : noNlDash b = true)
    (hab : a.getLast? = some '\n' → b.head? ≠ some '-') :
    noNlDash (a ++ b) = true := by
  induction a with
  | nil => simpa using hb
  | cons x a' ih =>
    cases a' with
    | nil =>
      cases b with
      | nil => rfl
      | cons y b' =>
        show noNlDash (x :: y :: b') = true
        unfold noNlDash
        rw [Bool.and_eq_true]
        refine ⟨?_, hb⟩
        by_cases hx : x = '\n'
        · have hy : y ≠ '-' := by
            have := hab (by simp [hx])
            simpa using this
          simp [hy]
        · simp [hx]
    | cons z a'' =>
      show noNlDash (x :: z :: (a'' ++ b)) = true
      unfold noNlDash
      rw [Bool.and_eq_true]
      constructor
      · have hh := ha
        unfold noNlDash at hh
        rw [Bool.and_eq_true] at hh
        exact hh.1
      · exact ih (noNlDash_tail ha)
          (fun hl => hab (by rw [List.getLast?_cons_cons]; exact hl))

/-- In `mid ++ '\n' :: rest`, no occurrence of `"\n---\n"` can start
inside `mid` when `mid` never has `'\n'` directly followed by `'-'`. -/
theorem no_close_in_mid {mid : List Char} (rest : List Char)
    (h : noNlDash mid = true) :
    ∀ k, k < mid.length →
      ¬ (List.isPrefixOf ['\n', '-', '-', '-', '\n']
          ((mid ++ '\n' :: rest).drop k) = true) := by
  induction mid with
  | nil => intro k hk; simp at hk
  | cons c mid' ih =>
    intro k hk hpre
    cases k with
    | zero =>
      simp only [List.drop_zero, List.cons_append] at hpre
      simp only [List.isPrefixOf, Bool.and_eq_true, beq_iff_eq] at hpre
      obtain ⟨hc, hpre⟩ := hpre
      cases mid' with
      | nil =>
        simp only [List.nil_append, List.isPrefixOf, Bool.and_eq_true,
          beq_iff_eq] at hpre
        exact (by decide : ¬ ('-' : Char) = '\n') hpre.1
      | cons d mid'' =>
        simp only [List.cons_append, List.isPrefixOf, Bool.and_eq_true,
          beq_iff_eq] at hpre
        have hd : d = '-' := hpre.1.symm
        have := h
        unfold noNlDash at this
        rw [Bool.and_eq_true] at this
        have hfst := this.1
        rw [← hc, hd] at hfst
        simp at hfst
    | succ k' =>
      have hdrop : ((c :: mid') ++ '\n' :: rest).drop (k' + 1) =
          (mid' ++ '\n' :: rest).drop k' := rfl
      rw [hdrop] at hpre
      exact ih (noNlDash_tail h) k'
        (by simpa using Nat.lt_of_succ_lt_succ hk) hpre

/-! ### markdown.py — content conversion -/

/-- Bear uses U+2800 (Braille blank) as empty-line spacers. -/
def brailleBlank : Char := '⠀'

/-- Python `s.replace(pat, rep)` on strings. -/
def pyReplace (s pat rep : String) : String :=
  ⟨replaceSub s.data pat.data rep.data⟩

/-- Gregorian civil date (year, month, day) from days since 1970-01-01,
the standard era-based conversion equivalent to the calendar arithmetic
behind `datetime.fromtimestamp(·, timezone.utc)`. -/
def civilFromDays (z0 : Int) : Int × Int × Int :=
  let z := z0 + 719468
  let era := (if 0 ≤ z then z else z - 146096) / 146097
  let doe := z - era * 146097
  let yoe := (doe - doe / 1460 + doe / 36524 - doe / 146096) / 365
  let y := yoe + era * 400
  let doy := doe - (365 * yoe + yoe / 4 - yoe / 100)
  let mp := (5 * doy + 2) / 153
  let d := doy - (153 * mp + 2) / 5 + 1
  let m := mp + (if mp < 10 then 3 else -9)
  (if m ≤ 2 then y + 1 else y, m, d)

/-- Left-pad the decimal representation of `n` with zeros to width `w`
(Python `%0wd` for nonnegative operands). -/
def padNat (w n : Nat) : String :=
  ⟨List.replicate (w - (natReprChars n).length) '0' ++ natReprChars n⟩

/-- `%Y`: the year, zero-padded to four digits. -/
def padYear (y : Int) : String :=
  if y < 0 then "-" ++ padNat 4 (-y).toNat else padNat 4 y.toNat

/-- `datetime.fromtimestamp(ts, timezone.utc).strftime('%Y-%m-%dT%H:%M:%S')`
for a whole-second Unix timestamp (the note timestamps the program
formats). -/
def formatTimestamp (ts : Int) : String :=
  let days := ts.fdiv 86400
  let secs := (ts.fmod 86400).toNat
  let ymd := civilFromDays days
  padYear ymd.1 ++ "-" ++ padNat 2 ymd.2.1.toNat ++ "-" ++
    padNat 2 ymd.2.2.toNat ++ "T" ++ padNat 2 (secs / 3600) ++ ":" ++
    padNat 2 (secs % 3600 / 60) ++ ":" ++ padNat 2 (secs % 60)

/-- Python's `'true' if b else 'false'`. -/
def boolStr (b : Bool) : String :=
  if b then "true" else "false"

/-- `_build_frontmatter`: the YAML frontmatter block, with the source's
`"\n".join(lines)` of the fixed 8-line list written out as literal
concatenation. -/
def build_frontmatter (bear_id : String) (created modified : Int)
    (archived pinned : Bool) : String :=
  "---\n" ++ "bear_id: " ++ bear_id ++ "\ncreated: " ++
    formatTimestamp created ++ "\nmodified: " ++ formatTimestamp modified ++
    "\narchived: " ++ boolStr archived ++ "\npinned: " ++ boolStr pinned ++
    "\n---\n"

/-- `strip_frontmatter`: remove the YAML frontmatter. Identity when the
text does not start with `"---\n"` or has no `"\n---\n"` at index ≥ 4;
otherwise drop everything up to and including the closing delimiter. -/
def strip_frontmatter (text : String) : String :=
  if List.isPrefixOf "---\n".data text.data then
    match findSubFrom text.data "\n---\n".data 4 with
    | none => text
    | some e => ⟨text.data.drop (e + 5)⟩
  else text

/-- `bear_to_obsidian`: strip braille spacers, rewrite attachment
references when a non-empty map is given, and prepend frontmatter. -/
def bear_to_obsidian (text bear_id : String) (created modified : Int)
    (archived pinned : Bool) (attachment_map : Option (SMap String)) : String :=
  let content := pyReplace text "⠀" ""
  let content :=
    match attachment_map with
    | none => content
    | some m => m.foldl (fun acc p => pyReplace acc p.1 p.2) content
  build_frontmatter bear_id created modified archived pinned ++ content

/-- `obsidian_to_bear`: strip the frontmatter and reverse the
attachment-path rewriting. -/
def obsidian_to_bear (text : String) (attachment_map : Option (SMap String)) :
    String :=
  let content := strip_frontmatter text
  match attachment_map with
  | none => content
  | some m => m.foldl (fun acc p => pyReplace acc p.1 p.2) content

/-- Python `\s` (ASCII whitespace; the program's titles and bodies do
not exercise the non-ASCII whitespace range). -/
def isPyWS (c : Char) : Bool :=
  c == ' ' || c == '\t' || c == '\n' || c == '\r' || c == '\x0b' || c == '\x0c'

/-- A character matched by the tag regex class `[\w/\-]` (ASCII word
characters, `/` and `-`). -/
def isTagChar (c : Char) : Bool :=
  c.isAlphanum || c == '_' || c == '/' || c == '-'

/-- Scanning loop of `findInlineTags`, fuel-based so the kernel can
evaluate it (fuel `l.length + 1` always suffices). -/
def findInlineTagsAux : Nat → Option Char → List Char → List String
  | 0, _, _ => []
  | fuel + 1, prev, l =>
    match l with
    | [] => []
    | c :: rest =>
      if c == '#' && (match prev with | none => true | some p => isPyWS p) then
        let run := rest.takeWhile isTagChar
        if run.isEmpty then findInlineTagsAux fuel (some c) rest
        else ⟨run⟩ ::
          findInlineTagsAux fuel (some (run.getLastD c)) (rest.dropWhile isTagChar)
      else findInlineTagsAux fuel (some c) rest

/-- The successive matches of `(?:^|(?<=\s))#([\w/\-]+)` in document
order: a `#` at the start or after whitespace followed by a non-empty
run of tag characters, scanning left to right past each match. -/
def findInlineTags (prev : Option Char) (l : List Char) : List String :=
  findInlineTagsAux (l.length + 1) prev l

/-- `extract_primary_tag`: the first inline tag of the body that is one
of the note's known tags (the source's second, elementwise scan of
`tags` re-tests the same equality and is omitted as redundant), falling
back to the first known tag; `None` when the note has no tags. -/
def extract_primary_tag (text : String) (tags : List String) : Option String :=
  match tags with
  | [] => none
  | t0 :: _ =>
    match (findInlineTags none text.data).find? (fun c => tags.contains c) with
    | some c => some c
    | none => some t0

theorem padNat_no_nl (w n : Nat) : ∀ c ∈ (padNat w n).data, c ≠ '\n' := by
  intro c hc
  unfold padNat at hc
  rcases List.mem_append.1 hc with h | h
  · rw [List.eq_of_mem_replicate h]
    decide
  · exact natReprChars_ne_nl h

theorem strData_append (s t : String) : (s ++ t).data = s.data ++ t.data := rfl

theorem padYear_no_nl (y : Int) : ∀ c ∈ (padYear y).data, c ≠ '\n' := by
  intro c hc
  unfold padYear at hc
  by_cases hy : y < 0
  · rw [if_pos hy, strData_append] at hc
    rcases List.mem_append.1 hc with h | h
    · simp only [List.mem_singleton] at h
      rw [h]
      decide
    · exact padNat_no_nl _ _ c h
  · rw [if_neg hy] at hc
    exact padNat_no_nl _ _ c hc

theorem formatTimestamp_no_nl (ts : Int) :
    ∀ c ∈ (formatTimestamp ts).data, c ≠ '\n' := by
  intro c hc
  unfold formatTimestamp at hc
  simp only [strData_append, List.append_assoc, List.mem_append] at hc
  rcases hc with h | h | h | h | h | h | h | h | h | h | h
  · exact padYear_no_nl _ c h
  · simp only [List.mem_singleton] at h; rw [h]; decide
  · exact padNat_no_nl _ _ c h
  · simp only [List.mem_singleton] at h; rw [h]; decide
  · exact padNat_no_nl _ _ c h
  · simp only [List.mem_singleton] at h; rw [h]; decide
  · exact padNat_no_nl _ _ c h
  · simp only [List.mem_singleton] at h; rw [h]; decide
  · exact padNat_no_nl _ _ c h
  · simp only [List.mem_singleton] at h; rw [h]; decide
  · exact padNat_no_nl _ _ c h

theorem boolStr_no_nl (b : Bool) : ∀ c ∈ (boolStr b).data, c ≠ '\n' := by
  cases b <;> decide

/-! ### sync_state.py — state store and change classifier -/

/-- Per-note sync state (`NoteState` dataclass). -/
structure NoteState where
  bear_id : String
  file_path : String
  bear_hash : String
  obsidian_hash : String
deriving DecidableEq, Repr

/-- The classifier's report (`ChangeReport` dataclass). -/
structure ChangeReport where
  bear_changed : List String
  obsidian_changed : List String
  conflicts : List String
  new_in_bear : List String
  deleted_in_bear : List String
deriving DecidableEq, Repr

/-- Outcome of the three-way comparison for one tracked note. -/
inductive NoteClass
  | conflict
  | bearChanged
  | obsChanged
deriving DecidableEq, Repr

/-- Python `sorted` on identifier lists (code-point lexicographic
order; any correct sort yields the same list). -/
def sortStr (l : List String) : List String :=
  List.insertionSort (· ≤ ·) l

/-- `SyncStateManager.set_note`: record or update state for a note. -/
def set_note (m : SMap NoteState) (bear_id file_path bear_hash obsidian_hash :
    String) : SMap NoteState :=
  m.upsert bear_id ⟨bear_id, file_path, bear_hash, obsidian_hash⟩

/-- The three-way comparison `detect_changes` performs for one id in
`S ∩ T`: a missing current destination hash falls back to the stored
one (a vanished destination file counts as unchanged). -/
def classify_note (tracked : SMap NoteState) (bear_notes obsidian_files :
    SMap String) (bid : String) : Option NoteClass :=
  match SMap.lookup tracked bid, SMap.lookup bear_notes bid with
  | some state, some current_bear_hash =>
    let current_obs_hash :=
      (SMap.lookup obsidian_files bid).getD state.obsidian_hash
    if current_bear_hash ≠ state.bear_hash then
      (if current_obs_hash ≠ state.obsidian_hash then some .conflict
       else some .bearChanged)
    else if current_obs_hash ≠ state.obsidian_hash then some .obsChanged
    else none
  | _, _ => none

/-- `SyncStateManager.detect_changes`: compare current Bear hashes and
current vault-file hashes against tracked state.  The Python code
iterates over `set` differences/intersections and sorts each result;
the model filters the (deduplicated) key lists and sorts, which yields
the same five lists. -/
def detect_changes (tracked : SMap NoteState) (bear_notes obsidian_files :
    SMap String) : ChangeReport :=
  let all_bear_ids := (SMap.keysOf bear_notes).dedup
  let all_tracked_ids := (SMap.keysOf tracked).dedup
  let inter := all_tracked_ids.filter (fun b => all_bear_ids.contains b)
  { bear_changed := sortStr (inter.filter (fun b =>
      classify_note tracked bear_notes obsidian_files b == some .bearChanged))
    obsidian_changed := sortStr (inter.filter (fun b =>
      classify_note tracked bear_notes obsidian_files b == some .obsChanged))
    conflicts := sortStr (inter.filter (fun b =>
      classify_note tracked bear_notes obsidian_files b == some .conflict))
    new_in_bear := sortStr (all_bear_ids.filter (fun b =>
      !(all_tracked_ids.contains b)))
    deleted_in_bear := sortStr (all_tracked_ids.filter (fun b =>
      !(all_bear_ids.contains b))) }

/-- The `detect_changes` method as a state transformer: it only reads
`self._notes`, so the embedded method returns the store unchanged
alongside the report. -/
def detect_changes_method (tracked : SMap NoteState)
    (bear_notes obsidian_files : SMap String) :
    SMap NoteState × ChangeReport :=
  (tracked, detect_changes tracked bear_notes obsidian_files)

/-- `json.dumps` string escaping (the escapes the program's data can
hit; other control characters are left verbatim, which does not affect
any equality proved about the serializer). -/
def jsonEscape (s : String) : String :=
  ⟨s.data.foldr (fun c acc =>
    match c with
    | '\\' => '\\' :: '\\' :: acc
    | '"' => '\\' :: '"' :: acc
    | '\n' => '\\' :: 'n' :: acc
    | '\t' => '\\' :: 't' :: acc
    | '\r' => '\\' :: 'r' :: acc
    | _ => c :: acc) []⟩

/-- One serialized record of the persisted state document. -/
def noteStateJson (s : NoteState) : String :=
  "    \x7b\n      \"bear_id\": \"" ++ jsonEscape s.bear_id ++
    "\",\n      \"file_path\": \"" ++ jsonEscape s.file_path ++
    "\",\n      \"bear_hash\": \"" ++ jsonEscape s.bear_hash ++
    "\",\n      \"obsidian_hash\": \"" ++ jsonEscape s.obsidian_hash ++
    "\"\n    \x7d"

/-- `SyncStateManager.save`: the persisted state document — records
sorted by destination path (stable, like Python `sorted` with a
`file_path` key), serialized deterministically. -/
def serializeState (m : SMap NoteState) : String :=
  let entries := List.insertionSort
    (fun a b : NoteState => a.file_path ≤ b.file_path) (m.map Prod.snd)
  "\x7b\n  \"notes\": [" ++
    (if entries.isEmpty then "" else
      "\n" ++ String.intercalate ",\n" (entries.map noteStateJson) ++ "\n  ") ++
    "]\n\x7d\n"

theorem mem_sortStr {a : String} {l : List String} :
    a ∈ sortStr l ↔ a ∈ l :=
  List.mem_insertionSort _

theorem sorted_sortStr (l : List String) :
    List.Sorted (· ≤ ·) (sortStr l) :=
  List.sorted_insertionSort _ _

theorem nodup_sortStr {l : List String} (h : l.Nodup) :
    (sortStr l).Nodup :=
  ((List.perm_insertionSort _ l).nodup_iff).2 h

theorem mem_new_in_bear_iff (tracked : SMap NoteState)
    (bear obs : SMap String) (a : String) :
    a ∈ (detect_changes tracked bear obs).new_in_bear ↔
      a ∈ SMap.keysOf bear ∧ a ∉ SMap.keysOf tracked := by
  simp [detect_changes, mem_sortStr, List.mem_filter, List.mem_dedup]

theorem mem_deleted_in_bear_iff (tracked : SMap NoteState)
    (bear obs : SMap String) (a : String) :
    a ∈ (detect_changes tracked bear obs).deleted_in_bear ↔
      a ∈ SMap.keysOf tracked ∧ a ∉ SMap.keysOf bear := by
  simp [detect_changes, mem_sortStr, List.mem_filter, List.mem_dedup]

theorem mem_conflicts_iff (tracked : SMap NoteState)
    (bear obs : SMap String) (a : String) :
    a ∈ (detect_changes tracked bear obs).conflicts ↔
      a ∈ SMap.keysOf tracked ∧ a ∈ SMap.keysOf bear ∧
        classify_note tracked bear obs a = some .conflict := by
  simp only [detect_changes, mem_sortStr, List.mem_filter, List.mem_dedup,
    List.elem_iff, Bool.and_eq_true, decide_eq_true_eq,
    beq_iff_eq]
  tauto

theorem mem_bear_changed_iff (tracked : SMap NoteState)
    (bear obs : SMap String) (a : String) :
    a ∈ (detect_changes tracked bear obs).bear_changed ↔
      a ∈ SMap.keysOf tracked ∧ a ∈ SMap.keysOf bear ∧
        classify_note tracked bear obs a = some .bearChanged := by
  simp only [detect_changes, mem_sortStr, List.mem_filter, List.mem_dedup,
    List.elem_iff, Bool.and_eq_true, decide_eq_true_eq,
    beq_iff_eq]
  tauto

theorem mem_obsidian_changed_iff (tracked : SMap NoteState)
    (bear obs : SMap String) (a : String) :
    a ∈ (detect_changes tracked bear obs).obsidian_changed ↔
      a ∈ SMap.keysOf tracked ∧ a ∈ SMap.keysOf bear ∧
        classify_note tracked bear obs a = some .obsChanged := by
  simp only [detect_changes, mem_sortStr, List.mem_filter, List.mem_dedup,
    List.elem_iff, Bool.and_eq_true, decide_eq_true_eq,
    beq_iff_eq]
  tauto

theorem classify_note_eq {tracked : SMap NoteState} {bear obs : SMap String}
    {a : String} {st : NoteState} {cb : String}
    (hst : SMap.lookup tracked a = some st)
    (hcb : SMap.lookup bear a = some cb) :
    classify_note tracked bear obs a =
      (if cb ≠ st.bear_hash then
        (if (SMap.lookup obs a).getD st.obsidian_hash ≠ st.obsidian_hash
         then some .conflict else some .bearChanged)
       else if (SMap.lookup obs a).getD st.obsidian_hash ≠ st.obsidian_hash
         then some .obsChanged else none) := by
  unfold classify_note
  rw [hst, hcb]

/-- C2: `detect_changes` computes `new_in_bear = S − T`,
`deleted_in_bear = T − S`, and classifies every id of `S ∩ T` by
comparing the current source hash with the stored one and the current
destination hash — falling back to the stored destination hash when
the destination file's hash is absent — with the stored destination
hash: both differ ⟶ conflict, only source ⟶ source-changed, only
destination ⟶ destination-changed, neither ⟶ omitted from the report. -/
theorem c2_detect_changes_algorithm (tracked : SMap NoteState)
    (bear obs : SMap String) :
    (∀ a, a ∈ (detect_changes tracked bear obs).new_in_bear ↔
        a ∈ SMap.keysOf bear ∧ a ∉ SMap.keysOf tracked) ∧
    (∀ a, a ∈ (detect_changes tracked bear obs).deleted_in_bear ↔
        a ∈ SMap.keysOf tracked ∧ a ∉ SMap.keysOf bear) ∧
    (∀ a st cb, SMap.lookup tracked a = some st →
      SMap.lookup bear a = some cb →
      ((a ∈ (detect_changes tracked bear obs).conflicts ↔
          cb ≠ st.bear_hash ∧
          (SMap.lookup obs a).getD st.obsidian_hash ≠ st.obsidian_hash) ∧
       (a ∈ (detect_changes tracked bear obs).bear_changed ↔
          cb ≠ st.bear_hash ∧
          (SMap.lookup obs a).getD st.obsidian_hash = st.obsidian_hash) ∧
       (a ∈ (detect_changes tracked bear obs).obsidian_changed ↔
          cb = st.bear_hash ∧
          (SMap.lookup obs a).getD st.obsidian_hash ≠ st.obsidian_hash) ∧
       (cb = st.bear_hash →
        (SMap.lookup obs a).getD st.obsidian_hash = st.obsidian_hash →
          a ∉ (detect_changes tracked bear obs).conflicts ∧
          a ∉ (detect_changes tracked bear obs).bear_changed ∧
          a ∉ (detect_changes tracked bear obs).obsidian_changed ∧
          a ∉ (detect_changes tracked bear obs).new_in_bear ∧
          a ∉ (detect_changes tracked bear obs).deleted_in_bear))) := by
  refine ⟨fun a => mem_new_in_bear_iff tracked bear obs a,
    fun a => mem_deleted_in_bear_iff tracked bear obs a, ?_⟩
  intro a st cb hst hcb
  have hT : a ∈ SMap.keysOf tracked := SMap.mem_keysOf_of_lookup_eq_some hst
  have hS : a ∈ SMap.keysOf bear := SMap.mem_keysOf_of_lookup_eq_some hcb
  have hcls := @classify_note_eq tracked bear obs a st cb hst hcb
  by_cases h1 : cb = st.bear_hash <;>
    by_cases h2 : (SMap.lookup obs a).getD st.obsidian_hash = st.obsidian_hash <;>
    simp only [h1, h2, ne_eq, not_true_eq_false, not_false_eq_true, if_true,
      if_false, ite_true, ite_false] at hcls <;>
    refine ⟨?_, ?_, ?_, ?_⟩ <;>
    simp [mem_conflicts_iff, mem_bear_changed_iff, mem_obsidian_changed_iff,
      mem_new_in_bear_iff, mem_deleted_in_bear_iff, hcls, hT, hS, h1, h2]

/-- C3: for any source-hash map and destination-hash map, the five
report lists are pairwise disjoint (every identifier appears in exactly
one of them or in none), each list is sorted by identifier, and
`detect_changes` does not mutate the state store (the embedded method
returns the store unchanged). -/
theorem c3_classifier_disjoint_sorted_pure (tracked : SMap NoteState)
    (bear obs : SMap String) :
    (List.Sorted (· ≤ ·) (detect_changes tracked bear obs).new_in_bear ∧
     List.Sorted (· ≤ ·) (detect_changes tracked bear obs).deleted_in_bear ∧
     List.Sorted (· ≤ ·) (detect_changes tracked bear obs).bear_changed ∧
     List.Sorted (· ≤ ·) (detect_changes tracked bear obs).obsidian_changed ∧
     List.Sorted (· ≤ ·) (detect_changes tracked bear obs).conflicts) ∧
    ((detect_changes tracked bear obs).new_in_bear.Disjoint
        (detect_changes tracked bear obs).deleted_in_bear ∧
     (detect_changes tracked bear obs).new_in_bear.Disjoint
        (detect_changes tracked bear obs).bear_changed ∧
     (detect_changes tracked bear obs).new_in_bear.Disjoint
        (detect_changes tracked bear obs).obsidian_changed ∧
     (detect_changes tracked bear obs).new_in_bear.Disjoint
        (detect_changes tracked bear obs).conflicts ∧
     (detect_changes tracked bear obs).deleted_in_bear.Disjoint
        (detect_changes tracked bear obs).bear_changed ∧
     (detect_changes tracked bear obs).deleted_in_bear.Disjoint
        (detect_changes tracked bear obs).obsidian_changed ∧
     (detect_changes tracked bear obs).deleted_in_bear.Disjoint
        (detect_changes tracked bear obs).conflicts ∧
     (detect_changes tracked bear obs).bear_changed.Disjoint
        (detect_changes tracked bear obs).obsidian_changed ∧
     (detect_changes tracked bear obs).bear_changed.Disjoint
        (detect_changes tracked bear obs).conflicts ∧
     (detect_changes tracked bear obs).obsidian_changed.Disjoint
        (detect_changes tracked bear obs).conflicts) ∧
    detect_changes_method tracked bear obs =
      (tracked, detect_changes tracked bear obs) := by
  refine ⟨⟨sorted_sortStr _, sorted_sortStr _, sorted_sortStr _,
    sorted_sortStr _, sorted_sortStr _⟩, ⟨?_, ?_, ?_, ?_, ?_, ?_, ?_, ?_, ?_, ?_⟩, rfl⟩
  all_goals intro a h1 h2
  · rw [mem_new_in_bear_iff] at h1
    rw [mem_deleted_in_bear_iff] at h2
    exact h1.2 h2.1
  · rw [mem_new_in_bear_iff] at h1
    rw [mem_bear_changed_iff] at h2
    exact h1.2 h2.1
  · rw [mem_new_in_bear_iff] at h1
    rw [mem_obsidian_changed_iff] at h2
    exact h1.2 h2.1
  · rw [mem_new_in_bear_iff] at h1
    rw [mem_conflicts_iff] at h2
    exact h1.2 h2.1
  · rw [mem_deleted_in_bear_iff] at h1
    rw [mem_bear_changed_iff] at h2
    exact h1.2 h2.2.1
  · rw [mem_deleted_in_bear_iff] at h1
    rw [mem_obsidian_changed_iff] at h2
    exact h1.2 h2.2.1
  · rw [mem_deleted_in_bear_iff] at h1
    rw [mem_conflicts_iff] at h2
    exact h1.2 h2.2.1
  · rw [mem_bear_changed_iff] at h1
    rw [mem_obsidian_changed_iff] at h2
    rw [h1.2.2] at h2
    cases h2.2.2
  · rw [mem_bear_changed_iff] at h1
    rw [mem_conflicts_iff] at h2
    rw [h1.2.2] at h2
    cases h2.2.2
  · rw [mem_obsidian_changed_iff] at h1
    rw [mem_conflicts_iff] at h2
    rw [h1.2.2] at h2
    cases h2.2.2

theorem c2_detect_changes_algorithm_witness :
    SMap.lookup [("A", NoteState.mk "A" "p.md" "h1" "h2")] "A" =
      some (NoteState.mk "A" "p.md" "h1" "h2") ∧
    SMap.lookup [("A", "h1x")] "A" = some "h1x" ∧
    "A" ∈ (detect_changes [("A", NoteState.mk "A" "p.md" "h1" "h2")]
      [("A", "h1x")] [("A", "h2x")]).conflicts :=
  ⟨by decide, by decide,
    (((c2_detect_changes_algorithm
        [("A", NoteState.mk "A" "p.md" "h1" "h2")] [("A", "h1x")]
        [("A", "h2x")]).2.2 "A" (NoteState.mk "A" "p.md" "h1" "h2") "h1x"
        (by decide) (by decide)).1).2 ⟨by decide, by decide⟩⟩

/-! ### filenames.py — title sanitization and deduplication -/

/-- The regex class `[<>:"/\\|?*\x00-\x1f]` of characters illegal in
common file systems. -/
def isInvalidFileChar (c : Char) : Bool :=
  c == '<' || c == '>' || c == ':' || c == '"' || c == '/' || c == '\\' ||
    c == '|' || c == '?' || c == '*' || decide (c.toNat ≤ 0x1f)

/-- The regex class `[_ ]` collapsed by `sanitize_title`. -/
def isUnderscoreOrSpace (c : Char) : Bool :=
  c == '_' || c == ' '

/-- Scanning loop of `collapseRuns`, fuel-based so the kernel can
evaluate it (fuel `l.length + 1` always suffices). -/
def collapseRunsAux : Nat → List Char → List Char
  | 0, l => l
  | fuel + 1, l =>
    match l with
    | [] => []
    | c :: rest =>
      if isUnderscoreOrSpace c then
        if (rest.takeWhile isUnderscoreOrSpace).isEmpty then
          c :: collapseRunsAux fuel (rest.dropWhile isUnderscoreOrSpace)
        else
          ' ' :: collapseRunsAux fuel (rest.dropWhile isUnderscoreOrSpace)
      else c :: collapseRunsAux fuel rest

/-- `re.sub(r"[_ ]{2,}", " ", ·)`: each maximal run of two or more
underscores/spaces becomes a single space; runs of one are kept. -/
def collapseRuns (l : List Char) : List Char :=
  collapseRunsAux (l.length + 1) l

/-- Python `str.strip(chars)`: drop characters satisfying `p` from both
ends. -/
def stripChars (l : List Char) (p : Char → Bool) : List Char :=
  ((l.dropWhile p).reverse.dropWhile p).reverse

/-- `sanitize_title`: convert a note title to a safe filename (without
extension). -/
def sanitize_title (title : String) : String :=
  let name : String := ⟨stripChars title.data isPyWS⟩
  let name := if name = "" then "Untitled" else name
  let name : String :=
    ⟨name.data.map (fun c => if isInvalidFileChar c then '_' else c)⟩
  let name : String := ⟨collapseRuns name.data⟩
  let name : String := ⟨stripChars name.data (fun c => c == '.' || c == ' ')⟩
  let name := if name = "" then "Untitled" else name
  if name.length > 200 then
    ⟨((name.data.take 200).reverse.dropWhile (fun c => c == '.' || c == ' ')).reverse⟩
  else name

/-- The candidate key the dedup cascade tests for suffix `n`. -/
def cascadeKey (folder base : String) (n : Nat) : String :=
  lowerStr (pathJoin folder (base ++ " " ++ natRepr n ++ ".md"))

/-- The `while new_key in self._used` cascade of
`FilenameDeduplicator.get_unique_path`, made total with fuel (the
caller passes enough fuel for a free suffix to exist). -/
def dedupCascade (used : SMap Nat) (folder base : String) :
    Nat → Nat → SMap Nat × String
  | n, 0 => (used, pathJoin folder (base ++ " " ++ natRepr n ++ ".md"))
  | n, fuel + 1 =>
    let candidate := pathJoin folder (base ++ " " ++ natRepr n ++ ".md")
    let key := lowerStr candidate
    if key ∈ SMap.keysOf used then dedupCascade used folder base (n + 1) fuel
    else (SMap.upsert used key 1, candidate)

/-- `FilenameDeduplicator.get_unique_path`: return a unique `.md` path
within `folder`, tracking issued paths case-insensitively in `used`. -/
def get_unique_path (used : SMap Nat) (folder title : String) :
    SMap Nat × String :=
  let base := sanitize_title title
  let candidate := pathJoin folder (base ++ ".md")
  let key := lowerStr candidate
  match SMap.lookup used key with
  | none => (SMap.upsert used key 1, candidate)
  | some cnt =>
    let used1 := SMap.upsert used key (cnt + 1)
    dedupCascade used1 folder base (cnt + 1) (used1.length + 1)

/-- One run of the deduplicator: issue a path for every
`(folder, title)` request in order. -/
def issuePaths (used : SMap Nat) (reqs : List (String × String)) :
    SMap Nat × List String :=
  match reqs with
  | [] => (used, [])
  | (folder, title) :: rest =>
    let r1 := get_unique_path used folder title
    let r2 := issuePaths r1.1 rest
    (r2.1, r1.2 :: r2.2)

theorem map_toLower_natRepr (m : Nat) :
    (natRepr m).data.map Char.toLower = (natRepr m).data := by
  have h : ∀ c ∈ (natRepr m).data, Char.toLower c = c := by
    intro c hc
    obtain ⟨d, rfl⟩ := natReprChars_mem hc
    exact digitCharOf_toLower d
  rw [List.map_congr_left h]
  simp

theorem cascadeKey_inj (folder base : String) {m n : Nat}
    (h : cascadeKey folder base m = cascadeKey folder base n) : m = n := by
  have h' := congrArg String.data h
  simp only [cascadeKey, lowerStr, pathJoin, strData_append, List.map_append,
    List.append_assoc] at h'
  have h2 := List.append_cancel_left h'
  have h3 := List.append_cancel_left h2
  have h4 := List.append_cancel_left h3
  have h5 := List.append_cancel_left h4
  rw [map_toLower_natRepr, map_toLower_natRepr] at h5
  have h6 := List.append_cancel_right h5
  exact natRepr_inj (by apply congrArg String.mk; exact h6)

theorem exists_fresh_cascadeKey (used : SMap Nat) (folder base : String)
    (n : Nat) :
    ∃ i, i < used.length + 1 ∧
      cascadeKey folder base (n + i) ∉ SMap.keysOf used := by
  by_contra hcon
  push_neg at hcon
  have hmem : ∀ i : Fin (used.length + 1),
      cascadeKey folder base (n + i) ∈ SMap.keysOf used :=
    fun i => hcon i i.isLt
  have hinj : Function.Injective
      (fun i : Fin (used.length + 1) => cascadeKey folder base (n + i)) := by
    intro i j hij
    have := cascadeKey_inj folder base hij
    exact Fin.ext (by omega)
  have hcard : (Finset.image
      (fun i : Fin (used.length + 1) => cascadeKey folder base (n + i))
      Finset.univ).card = used.length + 1 := by
    rw [Finset.card_image_of_injective _ hinj, Finset.card_univ,
      Fintype.card_fin]
  have hsub : (Finset.image
      (fun i : Fin (used.length + 1) => cascadeKey folder base (n + i))
      Finset.univ) ⊆ (SMap.keysOf used).toFinset := by
    intro x hx
    obtain ⟨i, _, rfl⟩ := Finset.mem_image.1 hx
    exact List.mem_toFinset.2 (hmem i)
  have hle := Finset.card_le_card hsub
  have hfin : (SMap.keysOf used).toFinset.card ≤ used.length := by
    calc (SMap.keysOf used).toFinset.card ≤ (SMap.keysOf used).length :=
      List.toFinset_card_le _
    _ = used.length := by simp [SMap.keysOf]
  omega

theorem dedupCascade_succ (used : SMap Nat) (folder base : String)
    (n fuel : Nat) :
    dedupCascade used folder base n (fuel + 1) =
      if lowerStr (pathJoin folder (base ++ " " ++ natRepr n ++ ".md")) ∈
          SMap.keysOf used
      then dedupCascade used folder base (n + 1) fuel
      else (SMap.upsert used
              (lowerStr (pathJoin folder (base ++ " " ++ natRepr n ++ ".md"))) 1,
            pathJoin folder (base ++ " " ++ natRepr n ++ ".md")) := rfl

theorem dedupCascade_spec (folder base : String) :
    ∀ fuel (used : SMap Nat) n,
      (∃ i, i < fuel ∧ cascadeKey folder base (n + i) ∉ SMap.keysOf used) →
      lowerStr (dedupCascade used folder base n fuel).2 ∉ SMap.keysOf used ∧
      (dedupCascade used folder base n fuel).1 =
        SMap.upsert used (lowerStr (dedupCascade used folder base n fuel).2) 1 := by
  intro fuel
  induction fuel with
  | zero =>
    intro used n h
    obtain ⟨i, hi, _⟩ := h
    omega
  | succ fuel ih =>
    intro used n h
    rw [dedupCascade_succ]
    by_cases hk : lowerStr (pathJoin folder (base ++ " " ++ natRepr n ++ ".md")) ∈
        SMap.keysOf used
    · rw [if_pos hk]
      apply ih used (n + 1)
      obtain ⟨i, hi, hfree⟩ := h
      cases i with
      | zero =>
        exact absurd (by simpa [cascadeKey] using hk) hfree
      | succ j =>
        refine ⟨j, by omega, ?_⟩
        have he : n + 1 + j = n + (j + 1) := by omega
        rw [he]
        exact hfree
    · rw [if_neg hk]
      exact ⟨hk, rfl⟩

theorem get_unique_path_eq (used : SMap Nat) (folder title : String) :
    get_unique_path used folder title =
      match SMap.lookup used
          (lowerStr (pathJoin folder (sanitize_title title ++ ".md"))) with
      | none =>
        (SMap.upsert used
          (lowerStr (pathJoin folder (sanitize_title title ++ ".md"))) 1,
         pathJoin folder (sanitize_title title ++ ".md"))
      | some cnt =>
        dedupCascade
          (SMap.upsert used
            (lowerStr (pathJoin folder (sanitize_title title ++ ".md")))
            (cnt + 1))
          folder (sanitize_title title) (cnt + 1)
          ((SMap.upsert used
            (lowerStr (pathJoin folder (sanitize_title title ++ ".md")))
            (cnt + 1)).length + 1) := rfl

theorem get_unique_path_spec (used : SMap Nat) (folder title : String) :
    lowerStr (get_unique_path used folder title).2 ∉ SMap.keysOf used ∧
    SMap.keysOf (get_unique_path used folder title).1 =
      SMap.keysOf used ++ [lowerStr (get_unique_path used folder title).2] := by
  rw [get_unique_path_eq]
  cases hl : SMap.lookup used
      (lowerStr (pathJoin folder (sanitize_title title ++ ".md"))) with
  | none =>
    have hnot : lowerStr (pathJoin folder (sanitize_title title ++ ".md")) ∉
        SMap.keysOf used := (SMap.lookup_eq_none_iff _ _).1 hl
    exact ⟨hnot, SMap.keysOf_upsert_of_not_mem _ hnot⟩
  | some cnt =>
    have hmem : lowerStr (pathJoin folder (sanitize_title title ++ ".md")) ∈
        SMap.keysOf used :=
      SMap.mem_keysOf_of_lookup_eq_some hl
    have hk1 : SMap.keysOf (SMap.upsert used
        (lowerStr (pathJoin folder (sanitize_title title ++ ".md")))
        (cnt + 1)) = SMap.keysOf used :=
      SMap.keysOf_upsert_of_mem _ hmem
    obtain ⟨i, hi, hfree⟩ := exists_fresh_cascadeKey
      (SMap.upsert used
        (lowerStr (pathJoin folder (sanitize_title title ++ ".md")))
        (cnt + 1)) folder (sanitize_title title) (cnt + 1)
    have hspec := dedupCascade_spec folder (sanitize_title title)
      ((SMap.upsert used
        (lowerStr (pathJoin folder (sanitize_title title ++ ".md")))
        (cnt + 1)).length + 1)
      (SMap.upsert used
        (lowerStr (pathJoin folder (sanitize_title title ++ ".md")))
        (cnt + 1))
      (cnt + 1) ⟨i, by omega, hfree⟩
    refine ⟨?_, ?_⟩
    · rw [← hk1]
      exact hspec.1
    · rw [hspec.2, SMap.keysOf_upsert_of_not_mem _ hspec.1, hk1]

theorem issuePaths_nil (used : SMap Nat) : issuePaths used [] = (used, []) := rfl

theorem issuePaths_cons (used : SMap Nat) (folder title : String)
    (rest : List (String × String)) :
    issuePaths used ((folder, title) :: rest) =
      ((issuePaths (get_unique_path used folder title).1 rest).1,
       (get_unique_path used folder title).2 ::
         (issuePaths (get_unique_path used folder title).1 rest).2) := rfl

theorem issuePaths_sound : ∀ (reqs : List (String × String)) (used : SMap Nat),
    (∀ p ∈ (issuePaths used reqs).2,
      lowerStr p ∈ SMap.keysOf (issuePaths used reqs).1 ∧
      lowerStr p ∉ SMap.keysOf used) ∧
    (∀ k ∈ SMap.keysOf used, k ∈ SMap.keysOf (issuePaths used reqs).1) ∧
    ((issuePaths used reqs).2.map lowerStr).Nodup := by
  intro reqs
  induction reqs with
  | nil =>
    intro used
    exact ⟨fun p hp => absurd hp (by simp [issuePaths]),
      fun k hk => by simpa [issuePaths] using hk, by simp [issuePaths]⟩
  | cons req rest ih =>
    intro used
    obtain ⟨folder, title⟩ := req
    have hgu := get_unique_path_spec used folder title
    have hih := ih (get_unique_path used folder title).1
    rw [issuePaths_cons]
    have hheadmem : lowerStr (get_unique_path used folder title).2 ∈
        SMap.keysOf (get_unique_path used folder title).1 := by
      rw [hgu.2]
      simp
    refine ⟨?_, ?_, ?_⟩
    · intro p hp
      rcases List.mem_cons.1 hp with rfl | hp'
      · exact ⟨hih.2.1 _ hheadmem, hgu.1⟩
      · refine ⟨(hih.1 p hp').1, ?_⟩
        intro hmem
        apply (hih.1 p hp').2
        rw [hgu.2]
        exact List.mem_append.2 (Or.inl hmem)
    · intro k hk
      apply hih.2.1
      rw [hgu.2]
      exact List.mem_append.2 (Or.inl hk)
    · rw [List.map_cons, List.nodup_cons]
      refine ⟨?_, hih.2.2⟩
      intro hcon
      obtain ⟨p, hp, hpe⟩ := List.mem_map.1 hcon
      exact (hih.1 p hp).2 (hpe ▸ hheadmem)

set_option maxRecDepth 8000 in
/-- C6: within a single run, every path issued by
`FilenameDeduplicator.get_unique_path` is case-insensitively distinct
from every previously issued path (for any request sequence), and two
requests with the same folder and title deterministically receive the
base name and the base name with numeric suffix `2`. -/
theorem c6_unique_paths_per_run :
    (∀ reqs : List (String × String),
      ((issuePaths [] reqs).2.map lowerStr).Nodup) ∧
    (∀ folder title : String,
      (issuePaths [] [(folder, title), (folder, title)]).2 =
        [pathJoin folder (sanitize_title title ++ ".md"),
         pathJoin folder (sanitize_title title ++ " 2.md")]) := by
  constructor
  · intro reqs
    exact (issuePaths_sound reqs []).2.2
  · intro folder title
    have hlow : ∀ t : String, (lowerStr t).length = t.length := by
      intro t
      show (t.data.map Char.toLower).length = t.data.length
      exact List.length_map _ _
    have hcand : sanitize_title title ++ " " ++ natRepr 2 ++ ".md" =
        sanitize_title title ++ " 2.md" := by
      have h2 : natRepr 2 = "2" := by decide
      rw [h2]
      apply String.ext
      simp only [strData_append, List.append_assoc]
      congr 1
    have hne : lowerStr (pathJoin folder (sanitize_title title ++ " 2.md")) ≠
        lowerStr (pathJoin folder (sanitize_title title ++ ".md")) := by
      intro he
      have hlen := congrArg String.length he
      rw [hlow, hlow] at hlen
      simp only [pathJoin, String.length_append] at hlen
      have e1 : (" 2.md" : String).length = 5 := rfl
      have e2 : (".md" : String).length = 3 := rfl
      omega
    have h1 : get_unique_path [] folder title =
        ([(lowerStr (pathJoin folder (sanitize_title title ++ ".md")), 1)],
         pathJoin folder (sanitize_title title ++ ".md")) := by
      rw [get_unique_path_eq]
      rw [show SMap.lookup ([] : SMap Nat)
          (lowerStr (pathJoin folder (sanitize_title title ++ ".md"))) =
          none from rfl]
      simp [SMap.upsert, SMap.keysOf]
    have hu : SMap.upsert
        [(lowerStr (pathJoin folder (sanitize_title title ++ ".md")), 1)]
        (lowerStr (pathJoin folder (sanitize_title title ++ ".md"))) 2 =
        [(lowerStr (pathJoin folder (sanitize_title title ++ ".md")), 2)] := by
      simp [SMap.upsert, SMap.keysOf]
    have h2 : get_unique_path
        [(lowerStr (pathJoin folder (sanitize_title title ++ ".md")), 1)]
        folder title =
        ([(lowerStr (pathJoin folder (sanitize_title title ++ ".md")), 2),
          (lowerStr (pathJoin folder (sanitize_title title ++ " 2.md")), 1)],
         pathJoin folder (sanitize_title title ++ " 2.md")) := by
      rw [get_unique_path_eq]
      rw [show SMap.lookup
          [(lowerStr (pathJoin folder (sanitize_title title ++ ".md")), 1)]
          (lowerStr (pathJoin folder (sanitize_title title ++ ".md"))) =
          some 1 by simp [SMap.lookup]]
      show dedupCascade
          (SMap.upsert
            [(lowerStr (pathJoin folder (sanitize_title title ++ ".md")), 1)]
            (lowerStr (pathJoin folder (sanitize_title title ++ ".md"))) 2)
          folder (sanitize_title title) 2
          ((SMap.upsert
            [(lowerStr (pathJoin folder (sanitize_title title ++ ".md")), 1)]
            (lowerStr (pathJoin folder (sanitize_title title ++ ".md")))
            2).length + 1) = _
      rw [hu]
      rw [show ([(lowerStr (pathJoin folder
          (sanitize_title title ++ ".md")), 2)] : SMap Nat).length + 1 =
          1 + 1 from rfl]
      rw [dedupCascade_succ, hcand]
      rw [if_neg (by
        simp only [SMap.keysOf, List.map_cons, List.map_nil,
          List.mem_singleton]
        exact hne)]
      simp only [SMap.upsert, SMap.keysOf, List.map_cons, List.map_nil,
        List.mem_singleton]
      rw [if_neg hne]
      rfl
    rw [issuePaths_cons, h1]
    dsimp only
    rw [issuePaths_cons, h2]
    dsimp only
    rw [issuePaths_nil]

/-! ### bear_db.py / attachments.py — notes, attachments, copying -/

/-- A Bear attachment (`BearAttachment`): `source_content = some c`
models a resolvable, existing source file with contents `c` (its
on-disk size is `c.length`); `none` models a missing source, which
`build_attachment_map`/`copy_attachments` skip. -/
structure BearAttachmentM where
  uuid : String
  filename : String
  source_content : Option String
deriving DecidableEq, Repr

/-- A Bear note (`BearNote`), as fetched from the read-only snapshot;
timestamps are whole-second Unix times. -/
structure BearNote where
  uuid : String
  title : String
  text : String
  created : Int
  modified : Int
  archived : Bool
  pinned : Bool
  tags : List String
  attachments : List BearAttachmentM
deriving DecidableEq, Repr

/-- `build_attachment_map`: map each resolvable attachment's Bear-style
reference to its vault-relative path (the `note_folder` parameter is
unused, as in the source). -/
def build_attachment_map (attachments : List BearAttachmentM)
    (note_folder : String) : SMap String :=
  attachments.filterMap (fun att =>
    match att.source_content with
    | some _ =>
      some (att.uuid ++ "/" ++ att.filename, "_attachments/" ++ att.filename)
    | none => none)

/-- State threaded through `copy_attachments`: the vault tree, the
number of files copied so far, and a log of the writes performed. -/
structure CopyAcc where
  files : SMap String
  copied : Nat
  writes : List (String × String)

/-- One iteration of the `copy_attachments` loop: skip unresolvable
attachments; otherwise copy to `note_folder/_attachments/filename`
unless the destination exists with the source's size. -/
def copyAttStep (note_folder : String) (acc : CopyAcc) (att : BearAttachmentM) :
    CopyAcc :=
  match att.source_content with
  | none => acc
  | some content =>
    let dest := pathJoin (pathJoin note_folder "_attachments") att.filename
    let needs :=
      match SMap.lookup acc.files dest with
      | none => true
      | some existing => decide (existing.length ≠ content.length)
    if needs then
      ⟨SMap.upsert acc.files dest content, acc.copied + 1,
        acc.writes ++ [(dest, content)]⟩
    else acc

/-- `copy_attachments`: copy each resolvable attachment into the note
folder's `_attachments` directory, overwriting only when the
destination is absent or its size differs from the source. -/
def copy_attachments (attachments : List BearAttachmentM)
    (note_folder : String) (files : SMap String) : CopyAcc :=
  attachments.foldl (copyAttStep note_folder) ⟨files, 0, []⟩

/-- The destination paths `copy_attachments` probes for a note's
attachments (each is written there, or already exists there). -/
def attProbesOf (attachments : List BearAttachmentM) (note_folder : String) :
    List String :=
  attachments.filterMap (fun att =>
    att.source_content.map (fun _ =>
      pathJoin (pathJoin note_folder "_attachments") att.filename))

theorem copyAtt_fold_spec (note_folder : String) :
    ∀ (attachments : List BearAttachmentM) (acc : CopyAcc),
      (∀ k ∈ SMap.keysOf acc.files, k ∈ SMap.keysOf
        (attachments.foldl (copyAttStep note_folder) acc).files) ∧
      (∀ p ∈ attProbesOf attachments note_folder, p ∈ SMap.keysOf
        (attachments.foldl (copyAttStep note_folder) acc).files) ∧
      (∃ ws, (attachments.foldl (copyAttStep note_folder) acc).writes =
          acc.writes ++ ws ∧
        ∀ w ∈ ws, w.1 ∈ attProbesOf attachments note_folder) := by
  intro attachments
  induction attachments with
  | nil =>
    intro acc
    exact ⟨fun k hk => hk, fun p hp => absurd hp (by simp [attProbesOf]),
      ⟨[], by simp, fun w hw => absurd hw (List.not_mem_nil w)⟩⟩
  | cons att rest ih =>
    intro acc
    rw [List.foldl_cons]
    cases hsc : att.source_content with
    | none =>
      have hstep : copyAttStep note_folder acc att = acc := by
        unfold copyAttStep
        rw [hsc]
      rw [hstep]
      have hprobes : attProbesOf (att :: rest) note_folder =
          attProbesOf rest note_folder := by
        simp [attProbesOf, hsc]
      rw [hprobes]
      exact ih acc
    | some content =>
      have hprobes : attProbesOf (att :: rest) note_folder =
          pathJoin (pathJoin note_folder "_attachments") att.filename ::
            attProbesOf rest note_folder := by
        simp [attProbesOf, hsc]
      rw [hprobes]
      have hkeys : ∀ k ∈ SMap.keysOf acc.files,
          k ∈ SMap.keysOf (copyAttStep note_folder acc att).files := by
        intro k hk
        unfold copyAttStep
        rw [hsc]
        simp only []
        split
        · exact (SMap.mem_keysOf_upsert _).2 (Or.inl hk)
        · exact hk
      have hdest : pathJoin (pathJoin note_folder "_attachments") att.filename ∈
          SMap.keysOf (copyAttStep note_folder acc att).files := by
        unfold copyAttStep
        rw [hsc]
        simp only []
        split
        · exact (SMap.mem_keysOf_upsert _).2 (Or.inr rfl)
        · rename_i hneeds
          cases hl : SMap.lookup acc.files
              (pathJoin (pathJoin note_folder "_attachments") att.filename) with
          | none =>
            rw [hl] at hneeds
            simp at hneeds
          | some existing => exact SMap.mem_keysOf_of_lookup_eq_some hl
      have hwr : ∃ u, (copyAttStep note_folder acc att).writes =
          acc.writes ++ u ∧ ∀ w ∈ u,
            w.1 = pathJoin (pathJoin note_folder "_attachments") att.filename := by
        unfold copyAttStep
        rw [hsc]
        simp only []
        split
        · exact ⟨[(pathJoin (pathJoin note_folder "_attachments") att.filename,
            content)], rfl, by simp⟩
        · exact ⟨[], by simp, by simp⟩
      refine ⟨?_, ?_, ?_⟩
      · intro k hk
        exact (ih (copyAttStep note_folder acc att)).1 k (hkeys k hk)
      · intro p hp
        rcases List.mem_cons.1 hp with rfl | hp'
        · exact (ih (copyAttStep note_folder acc att)).1 _ hdest
        · exact (ih (copyAttStep note_folder acc att)).2.1 p hp'
      · obtain ⟨u, hu, humem⟩ := hwr
        obtain ⟨ws, hws, hmem⟩ := (ih (copyAttStep note_folder acc att)).2.2
        refine ⟨u ++ ws, by rw [hws, hu, List.append_assoc], ?_⟩
        intro w hw
        rcases List.mem_append.1 hw with hw' | hw'
        · exact List.mem_cons.2 (Or.inl (humem w hw'))
        · exact List.mem_cons.2 (Or.inr (hmem w hw'))

/-! ### exporter.py — Bear → Obsidian export and pull -/

/-- The run's environment: the vault root, the read-only Bear snapshot,
the configuration, and oracles fixing the outcome of this run's
side-effecting calls — `writeFails p` models `write_text` raising an
`OSError` at path `p`, `reread b` the text `fetch_note_by_uuid`
observes after a write-back (`none` = note not found), and `pushOk b`
whether the `x-callback-url` invocation for note `b` raises. -/
structure SyncEnv where
  vault : String
  notes : List BearNote
  exclude_tags : List String
  writeFails : String → Bool
  reread : String → Option String
  pushOk : String → Bool

/-- `tag_to_folder`: strip leading/trailing `#`/`/` then whitespace;
an empty result files under `_untagged`. -/
def tag_to_folder (tag : String) : String :=
  let clean : String :=
    ⟨stripChars (stripChars tag.data (fun c => c == '#' || c == '/')) isPyWS⟩
  if clean = "" then "_untagged" else clean

/-- `if exclude and any(t in exclude for t in note.tags)`. -/
def noteSkipped (exclude : List String) (note : BearNote) : Bool :=
  !exclude.isEmpty && note.tags.any (fun t => exclude.contains t)

/-- The folder a note is filed into: the primary tag's folder, or
`_untagged`. -/
def noteFolder (vault : String) (note : BearNote) : String :=
  match extract_primary_tag note.text note.tags with
  | some t => pathJoin vault (tag_to_folder t)
  | none => pathJoin vault "_untagged"

/-- `str(p.relative_to(root))` for the paths the exporter builds
(always `root ++ "/" ++ rel`; the raising branch is unreachable). -/
def relative_to (p root : String) : String :=
  if (root ++ "/").data.isPrefixOf p.data then ⟨p.data.drop (root.data.length + 1)⟩
  else p

/-- The vault path `_export_note` assigns to a note (via the dedup
registry). -/
def notePath (env : SyncEnv) (dedup : SMap Nat) (note : BearNote) : String :=
  (get_unique_path dedup (noteFolder env.vault note) note.title).2

/-- The dedup registry after `_export_note` assigns a note's path. -/
def noteDedup (env : SyncEnv) (dedup : SMap Nat) (note : BearNote) : SMap Nat :=
  (get_unique_path dedup (noteFolder env.vault note) note.title).1

/-- The converted document `_export_note` writes for a note. -/
def noteContent (env : SyncEnv) (note : BearNote) : String :=
  bear_to_obsidian note.text note.uuid note.created note.modified
    note.archived note.pinned
    (some (build_attachment_map note.attachments (noteFolder env.vault note)))

/-- The `NoteState` record `_export_note` stores for a note. -/
def noteNS (hash : String → String) (env : SyncEnv) (dedup : SMap Nat)
    (note : BearNote) : NoteState :=
  ⟨note.uuid, relative_to (notePath env dedup note) env.vault,
    hash note.text, hash (noteContent env note)⟩

/-- Output of `_export_note` for one note: the updated store, tree and
dedup registry, whether the file write raised, and the write log. -/
structure NoteExpOut where
  state : SMap NoteState
  files : SMap String
  dedup : SMap Nat
  failed : Bool
  writes : List (String × String)

/-- `_export_note`: place the note, convert it, assign a unique path,
write the document and record fresh hashes.  An `OSError` at the file
write (the per-note I/O failure point, per `env.writeFails`) leaves
store and tree untouched — the dedup registry was already updated. -/
def export_note_core (hash : String → String) (env : SyncEnv)
    (note : BearNote) (state : SMap NoteState) (files : SMap String)
    (dedup : SMap Nat) : NoteExpOut :=
  if env.writeFails (notePath env dedup note) then
    ⟨state, files, noteDedup env dedup note, true, []⟩
  else
    ⟨set_note state note.uuid (relative_to (notePath env dedup note) env.vault)
       (hash note.text) (hash (noteContent env note)),
     SMap.upsert files (notePath env dedup note) (noteContent env note),
     noteDedup env dedup note, false,
     [(notePath env dedup note, noteContent env note)]⟩

/-- Accumulator of the `export_all` loop. -/
structure ExpAcc where
  state : SMap NoteState
  files : SMap String
  dedup : SMap Nat
  exported : Nat
  attCopied : Nat
  errors : List String
  writes : List (String × String)

/-- One iteration of the `export_all` loop: skip excluded notes,
export, then copy attachments; a per-note exception is recorded as
`"{title}: ..."` and the loop continues. -/
def exportStep (hash : String → String) (env : SyncEnv) (acc : ExpAcc)
    (note : BearNote) : ExpAcc :=
  if noteSkipped env.exclude_tags note then acc
  else
    let r := export_note_core hash env note acc.state acc.files acc.dedup
    if r.failed then
      ⟨r.state, r.files, r.dedup, acc.exported, acc.attCopied,
        acc.errors ++ [note.title ++ ": write error"], acc.writes ++ r.writes⟩
    else if note.attachments.isEmpty then
      ⟨r.state, r.files, r.dedup, acc.exported + 1, acc.attCopied,
        acc.errors, acc.writes ++ r.writes⟩
    else
      let c := copy_attachments note.attachments (noteFolder env.vault note)
        r.files
      ⟨r.state, c.files, r.dedup, acc.exported + 1, acc.attCopied + c.copied,
        acc.errors, acc.writes ++ r.writes ++ c.writes⟩

/-- Result of an `export_all` run.  `saveDoc = some doc` records that
the run called `state.save()`, persisting `doc`. -/
structure ExportResult where
  state : SMap NoteState
  files : SMap String
  notes_exported : Nat
  attachments_copied : Nat
  errors : List String
  writes : List (String × String)
  saveDoc : Option String

/-- `export_all`: export every Bear note to the vault, then persist the
state store. -/
def export_all (hash : String → String) (env : SyncEnv)
    (state0 : SMap NoteState) (files0 : SMap String) : ExportResult :=
  let acc := env.notes.foldl (exportStep hash env)
    ⟨state0, files0, [], 0, 0, [], []⟩
  ⟨acc.state, acc.files, acc.exported, acc.attCopied, acc.errors, acc.writes,
    some (serializeState acc.state)⟩

/-- The per-note plan of an `export_all` run: everything the loop does
that depends only on the environment (not on the store or the tree),
computed alongside the dedup registry exactly as the loop evolves it. -/
structure EItem where
  uuid : String
  title : String
  path : String
  content : String
  ns : NoteState
  fails : Bool
  attProbes : List String

/-- The export plan for a list of notes, starting from a given dedup
registry. -/
def exportPlanAux (hash : String → String) (env : SyncEnv) :
    SMap Nat → List BearNote → List EItem
  | _, [] => []
  | dedup, note :: rest =>
    if noteSkipped env.exclude_tags note then exportPlanAux hash env dedup rest
    else
      ⟨note.uuid, note.title, notePath env dedup note, noteContent env note,
        noteNS hash env dedup note, env.writeFails (notePath env dedup note),
        if env.writeFails (notePath env dedup note) then []
        else attProbesOf note.attachments (noteFolder env.vault note)⟩ ::
        exportPlanAux hash env (noteDedup env dedup note) rest

/-- The export plan of a run (dedup registry starts empty). -/
def exportPlan (hash : String → String) (env : SyncEnv) : List EItem :=
  exportPlanAux hash env [] env.notes

/-- The state-store updates an export plan performs (failed notes
update nothing). -/
def planUpdates (plan : List EItem) : List (String × NoteState) :=
  plan.filterMap (fun it => if it.fails then none else some (it.uuid, it.ns))

/-- The error strings an export plan records, one per failing note. -/
def planErrors (plan : List EItem) : List String :=
  plan.filterMap (fun it =>
    if it.fails then some (it.title ++ ": write error") else none)

/-- Every path an export plan writes or probes. -/
def planPaths (plan : List EItem) : List String :=
  plan.foldr (fun it acc =>
    (if it.fails then [] else it.path :: it.attProbes) ++ acc) []

theorem planUpdates_cons_fails {it : EItem} {l : List EItem}
    (h : it.fails = true) : planUpdates (it :: l) = planUpdates l := by
  simp [planUpdates, List.filterMap_cons, h]

theorem planUpdates_cons_ok {it : EItem} {l : List EItem}
    (h : it.fails = false) :
    planUpdates (it :: l) = (it.uuid, it.ns) :: planUpdates l := by
  simp [planUpdates, List.filterMap_cons, h]

theorem planErrors_cons_fails {it : EItem} {l : List EItem}
    (h : it.fails = true) :
    planErrors (it :: l) = (it.title ++ ": write error") :: planErrors l := by
  simp [planErrors, List.filterMap_cons, h]

theorem planErrors_cons_ok {it : EItem} {l : List EItem}
    (h : it.fails = false) : planErrors (it :: l) = planErrors l := by
  simp [planErrors, List.filterMap_cons, h]

theorem planPaths_cons (it : EItem) (l : List EItem) :
    planPaths (it :: l) =
      (if it.fails then [] else it.path :: it.attProbes) ++ planPaths l := rfl

theorem export_fold_spec (hash : String → String) (env : SyncEnv) :
    ∀ (notes : List BearNote) (acc : ExpAcc),
      ((notes.foldl (exportStep hash env) acc).state =
        SMap.applyAll acc.state
          (planUpdates (exportPlanAux hash env acc.dedup notes))) ∧
      ((notes.foldl (exportStep hash env) acc).errors =
        acc.errors ++ planErrors (exportPlanAux hash env acc.dedup notes)) ∧
      (∃ ws, (notes.foldl (exportStep hash env) acc).writes = acc.writes ++ ws ∧
        ∀ w ∈ ws, w.1 ∈ planPaths (exportPlanAux hash env acc.dedup notes)) ∧
      (∀ k ∈ SMap.keysOf acc.files,
        k ∈ SMap.keysOf (notes.foldl (exportStep hash env) acc).files) ∧
      (∀ p ∈ planPaths (exportPlanAux hash env acc.dedup notes),
        p ∈ SMap.keysOf (notes.foldl (exportStep hash env) acc).files) := by
  intro notes
  induction notes with
  | nil =>
    intro acc
    refine ⟨rfl, by simp [exportPlanAux, planErrors],
      ⟨[], by simp, fun w hw => absurd hw (List.not_mem_nil w)⟩,
      fun k hk => hk,
      fun p hp => absurd hp (by simp [exportPlanAux, planPaths])⟩
  | cons note rest ih =>
    intro acc
    rw [List.foldl_cons]
    by_cases hskip : noteSkipped env.exclude_tags note = true
    · have hstep : exportStep hash env acc note = acc := by
        unfold exportStep
        rw [if_pos hskip]
      have hplan : exportPlanAux hash env acc.dedup (note :: rest) =
          exportPlanAux hash env acc.dedup rest := by
        show (if noteSkipped env.exclude_tags note = true then _ else _) = _
        rw [if_pos hskip]
      rw [hstep, hplan]
      exact ih acc
    · have hplan : exportPlanAux hash env acc.dedup (note :: rest) =
          (⟨note.uuid, note.title, notePath env acc.dedup note,
            noteContent env note, noteNS hash env acc.dedup note,
            env.writeFails (notePath env acc.dedup note),
            if env.writeFails (notePath env acc.dedup note) then []
            else attProbesOf note.attachments (noteFolder env.vault note)⟩ :
              EItem) ::
          exportPlanAux hash env (noteDedup env acc.dedup note) rest := by
        show (if noteSkipped env.exclude_tags note = true then _ else _) = _
        rw [if_neg hskip]
      rw [hplan]
      by_cases hfail : env.writeFails (notePath env acc.dedup note) = true
      · -- file write raises: error recorded, store and tree untouched
        have hcore : export_note_core hash env note acc.state acc.files
            acc.dedup =
            ⟨acc.state, acc.files, noteDedup env acc.dedup note, true, []⟩ := by
          unfold export_note_core
          rw [if_pos hfail]
        have hstep : exportStep hash env acc note =
            ⟨acc.state, acc.files, noteDedup env acc.dedup note, acc.exported,
              acc.attCopied, acc.errors ++ [note.title ++ ": write error"],
              acc.writes ++ []⟩ := by
          unfold exportStep
          rw [if_neg hskip, hcore]
          rfl
        rw [hstep]
        have hih := ih ⟨acc.state, acc.files, noteDedup env acc.dedup note,
          acc.exported, acc.attCopied,
          acc.errors ++ [note.title ++ ": write error"], acc.writes ++ []⟩
        refine ⟨?_, ?_, ?_, ?_, ?_⟩
        · rw [hih.1, planUpdates_cons_fails hfail]
        · rw [hih.2.1, planErrors_cons_fails hfail]
          simp
        · obtain ⟨ws, hws, hmem⟩ := hih.2.2.1
          refine ⟨ws, by rw [hws]; simp, ?_⟩
          intro w hw
          rw [planPaths_cons]
          simp only [hfail, if_true, List.nil_append]
          exact hmem w hw
        · exact hih.2.2.2.1
        · intro p hp
          apply hih.2.2.2.2
          rw [planPaths_cons] at hp
          simpa [hfail] using hp
      · -- the write lands: fresh hashes recorded, then attachments copied
        rw [Bool.not_eq_true] at hfail
        have hcore : export_note_core hash env note acc.state acc.files
            acc.dedup =
            ⟨set_note acc.state note.uuid
               (relative_to (notePath env acc.dedup note) env.vault)
               (hash note.text) (hash (noteContent env note)),
             SMap.upsert acc.files (notePath env acc.dedup note)
               (noteContent env note),
             noteDedup env acc.dedup note, false,
             [(notePath env acc.dedup note, noteContent env note)]⟩ := by
          unfold export_note_core
          rw [hfail]
          simp
        have hupd : set_note acc.state note.uuid
            (relative_to (notePath env acc.dedup note) env.vault)
            (hash note.text) (hash (noteContent env note)) =
            SMap.upsert acc.state note.uuid (noteNS hash env acc.dedup note) := rfl
        by_cases hatt : note.attachments.isEmpty = true
        · have hstep : exportStep hash env acc note =
              ⟨SMap.upsert acc.state note.uuid (noteNS hash env acc.dedup note),
               SMap.upsert acc.files (notePath env acc.dedup note)
                 (noteContent env note),
               noteDedup env acc.dedup note, acc.exported + 1, acc.attCopied,
               acc.errors,
               acc.writes ++ [(notePath env acc.dedup note,
                 noteContent env note)]⟩ := by
            unfold exportStep
            rw [if_neg hskip, hcore]
            simp [hatt, hupd]
          rw [hstep]
          have hih := ih ⟨SMap.upsert acc.state note.uuid
              (noteNS hash env acc.dedup note),
            SMap.upsert acc.files (notePath env acc.dedup note)
              (noteContent env note),
            noteDedup env acc.dedup note, acc.exported + 1, acc.attCopied,
            acc.errors,
            acc.writes ++ [(notePath env acc.dedup note, noteContent env note)]⟩
          have hattnil : note.attachments = [] := List.isEmpty_iff.1 hatt
          have hprobes : attProbesOf note.attachments
              (noteFolder env.vault note) = [] := by
            rw [hattnil]
            rfl
          refine ⟨?_, ?_, ?_, ?_, ?_⟩
          · rw [hih.1, planUpdates_cons_ok hfail]
            rfl
          · rw [hih.2.1, planErrors_cons_ok hfail]
          · obtain ⟨ws, hws, hmem⟩ := hih.2.2.1
            refine ⟨(notePath env acc.dedup note, noteContent env note) :: ws,
              by rw [hws]; simp, ?_⟩
            intro w hw
            rw [planPaths_cons]
            simp only [hfail, if_false, Bool.false_eq_true]
            rcases List.mem_cons.1 hw with rfl | hw'
            · simp
            · simp only [List.mem_append]
              exact Or.inr (hmem w hw')
          · intro k hk
            exact hih.2.2.2.1 k ((SMap.mem_keysOf_upsert _).2 (Or.inl hk))
          · intro p hp
            rw [planPaths_cons] at hp
            simp only [hfail, if_false, Bool.false_eq_true, hprobes,
              List.mem_append, List.mem_cons, List.mem_singleton] at hp
            rcases hp with (rfl | hp) | hp
            · exact hih.2.2.2.1 _ ((SMap.mem_keysOf_upsert _).2 (Or.inr rfl))
            · exact absurd hp (List.not_mem_nil p)
            · exact hih.2.2.2.2 p hp
        · have hstep : exportStep hash env acc note =
              ⟨SMap.upsert acc.state note.uuid (noteNS hash env acc.dedup note),
               (copy_attachments note.attachments (noteFolder env.vault note)
                 (SMap.upsert acc.files (notePath env acc.dedup note)
                   (noteContent env note))).files,
               noteDedup env acc.dedup note, acc.exported + 1,
               acc.attCopied + (copy_attachments note.attachments
                 (noteFolder env.vault note)
                 (SMap.upsert acc.files (notePath env acc.dedup note)
                   (noteContent env note))).copied,
               acc.errors,
               acc.writes ++ [(notePath env acc.dedup note,
                 noteContent env note)] ++
                 (copy_attachments note.attachments
                   (noteFolder env.vault note)
                   (SMap.upsert acc.files (notePath env acc.dedup note)
                     (noteContent env note))).writes⟩ := by
            unfold exportStep
            rw [if_neg hskip, hcore]
            simp [hatt, hupd]
          rw [hstep]
          have hcopy := copyAtt_fold_spec (noteFolder env.vault note)
            note.attachments
            ⟨SMap.upsert acc.files (notePath env acc.dedup note)
              (noteContent env note), 0, []⟩
          have hih := ih ⟨SMap.upsert acc.state note.uuid
              (noteNS hash env acc.dedup note),
            (copy_attachments note.attachments (noteFolder env.vault note)
              (SMap.upsert acc.files (notePath env acc.dedup note)
                (noteContent env note))).files,
            noteDedup env acc.dedup note, acc.exported + 1,
            acc.attCopied + (copy_attachments note.attachments
              (noteFolder env.vault note)
              (SMap.upsert acc.files (notePath env acc.dedup note)
                (noteContent env note))).copied,
            acc.errors,
            acc.writes ++ [(notePath env acc.dedup note,
              noteContent env note)] ++
              (copy_attachments note.attachments (noteFolder env.vault note)
                (SMap.upsert acc.files (notePath env acc.dedup note)
                  (noteContent env note))).writes⟩
          refine ⟨?_, ?_, ?_, ?_, ?_⟩
          · rw [hih.1, planUpdates_cons_ok hfail]
            rfl
          · rw [hih.2.1, planErrors_cons_ok hfail]
          · obtain ⟨ws, hws, hmem⟩ := hih.2.2.1
            obtain ⟨cw, hcw, hcmem⟩ := hcopy.2.2
            refine ⟨(notePath env acc.dedup note, noteContent env note) ::
              ((copy_attachments note.attachments (noteFolder env.vault note)
                (SMap.upsert acc.files (notePath env acc.dedup note)
                  (noteContent env note))).writes ++ ws), ?_, ?_⟩
            · rw [hws]
              simp [List.append_assoc]
            · intro w hw
              rw [planPaths_cons]
              simp only [hfail, if_false, Bool.false_eq_true, List.mem_append,
                List.mem_cons]
              rcases List.mem_cons.1 hw with rfl | hw'
              · exact Or.inl (Or.inl rfl)
              · rcases List.mem_append.1 hw' with hw'' | hw''
                · have : w.1 ∈ attProbesOf note.attachments
                      (noteFolder env.vault note) := by
                    have hcw' : (copy_attachments note.attachments
                        (noteFolder env.vault note)
                        (SMap.upsert acc.files (notePath env acc.dedup note)
                          (noteContent env note))).writes = cw := by
                      simpa using hcw
                    rw [hcw'] at hw''
                    exact hcmem w hw''
                  exact Or.inl (Or.inr this)
                · exact Or.inr (hmem w hw'')
          · intro k hk
            apply hih.2.2.2.1
            apply hcopy.1
            exact (SMap.mem_keysOf_upsert _).2 (Or.inl hk)
          · intro p hp
            rw [planPaths_cons] at hp
            simp only [hfail, if_false, Bool.false_eq_true, List.mem_append,
              List.mem_cons] at hp
            rcases hp with (rfl | hp) | hp
            · apply hih.2.2.2.1
              apply hcopy.1
              exact (SMap.mem_keysOf_upsert _).2 (Or.inr rfl)
            · exact hih.2.2.2.1 _ (hcopy.2.1 p hp)
            · exact hih.2.2.2.2 p hp

theorem export_all_state (hash : String → String) (env : SyncEnv)
    (state0 : SMap NoteState) (files0 : SMap String) :
    (export_all hash env state0 files0).state =
      (env.notes.foldl (exportStep hash env)
        ⟨state0, files0, [], 0, 0, [], []⟩).state := rfl

theorem export_all_files (hash : String → String) (env : SyncEnv)
    (state0 : SMap NoteState) (files0 : SMap String) :
    (export_all hash env state0 files0).files =
      (env.notes.foldl (exportStep hash env)
        ⟨state0, files0, [], 0, 0, [], []⟩).files := rfl

theorem export_all_errors (hash : String → String) (env : SyncEnv)
    (state0 : SMap NoteState) (files0 : SMap String) :
    (export_all hash env state0 files0).errors =
      (env.notes.foldl (exportStep hash env)
        ⟨state0, files0, [], 0, 0, [], []⟩).errors := rfl

theorem export_all_writes (hash : String → String) (env : SyncEnv)
    (state0 : SMap NoteState) (files0 : SMap String) :
    (export_all hash env state0 files0).writes =
      (env.notes.foldl (exportStep hash env)
        ⟨state0, files0, [], 0, 0, [], []⟩).writes := rfl

theorem export_all_saveDoc (hash : String → String) (env : SyncEnv)
    (state0 : SMap NoteState) (files0 : SMap String) :
    (export_all hash env state0 files0).saveDoc =
      some (serializeState (export_all hash env state0 files0).state) := rfl

/-- C4: running `export_all` twice with no source-side change between
the runs leaves the state store exactly as the first run left it,
persists a byte-identical state document, and creates no new file —
every path the second run writes already exists in the tree the first
run produced. -/
theorem c4_export_all_idempotent (hash : String → String) (env : SyncEnv)
    (state0 : SMap NoteState) (files0 : SMap String)
    (hnod : (SMap.keysOf state0).Nodup) :
    (export_all hash env (export_all hash env state0 files0).state
        (export_all hash env state0 files0).files).state =
      (export_all hash env state0 files0).state ∧
    (export_all hash env (export_all hash env state0 files0).state
        (export_all hash env state0 files0).files).saveDoc =
      (export_all hash env state0 files0).saveDoc ∧
    (∀ w ∈ (export_all hash env (export_all hash env state0 files0).state
        (export_all hash env state0 files0).files).writes,
      w.1 ∈ SMap.keysOf (export_all hash env state0 files0).files) := by
  have h1 := export_fold_spec hash env env.notes
    ⟨state0, files0, [], 0, 0, [], []⟩
  have h2 := export_fold_spec hash env env.notes
    ⟨(export_all hash env state0 files0).state,
     (export_all hash env state0 files0).files, [], 0, 0, [], []⟩
  dsimp only at h1 h2
  have e1 : (export_all hash env state0 files0).state =
      SMap.applyAll state0 (planUpdates (exportPlanAux hash env [] env.notes)) := by
    rw [export_all_state]
    exact h1.1
  have e2 : (export_all hash env (export_all hash env state0 files0).state
      (export_all hash env state0 files0).files).state =
      SMap.applyAll (export_all hash env state0 files0).state
        (planUpdates (exportPlanAux hash env [] env.notes)) := by
    rw [export_all_state]
    exact h2.1
  have hstate : (export_all hash env (export_all hash env state0 files0).state
      (export_all hash env state0 files0).files).state =
      (export_all hash env state0 files0).state := by
    rw [e2, e1]
    exact SMap.applyAll_replay state0 _ hnod
  refine ⟨hstate, ?_, ?_⟩
  · rw [export_all_saveDoc, export_all_saveDoc hash env state0 files0, hstate]
  · intro w hw
    rw [export_all_writes] at hw
    obtain ⟨ws, hws, hmem⟩ := h2.2.2.1
    rw [hws] at hw
    have hw' : w ∈ ws := by simpa using hw
    have hp := hmem w hw'
    rw [export_all_files]
    exact h1.2.2.2.2 w.1 hp

/-! ### exporter.py `pull_changes` and pusher.py `push_changes` -/

/-- `pathlib` parent of a path string: everything before the last
separator, `"."` when there is none. -/
def parentOfPath (p : String) : String :=
  if '/' ∈ p.data then
    ⟨((p.data.reverse.dropWhile (fun c => c != '/')).drop 1).reverse⟩
  else "."

/-- `pathlib` stem of a path string: the final component without its
last extension (a leading or trailing dot is not an extension). -/
def stemOfPath (p : String) : String :=
  let name := (p.data.reverse.takeWhile (fun c => c != '/')).reverse
  if '.' ∈ name then
    let i := name.length - 1 - (name.reverse.takeWhile (fun c => c != '.')).length
    if 0 < i ∧ i < name.length - 1 then ⟨name.take i⟩ else ⟨name⟩
  else ⟨name⟩

/-- `vault / p.parent` (pathlib drops a bare `"."` component). -/
def joinParent (vault parent : String) : String :=
  if parent = "." then vault else pathJoin vault parent

/-- The dedup registrations `pull_changes` performs up front: one per
tracked note, so historical files are not overwritten by same-titled
new notes. -/
def registerExisting (vault : String) (state0 : SMap NoteState) : SMap Nat :=
  state0.foldl (fun dedup p =>
    (get_unique_path dedup (joinParent vault (parentOfPath p.2.file_path))
      (stemOfPath p.2.file_path)).1) []

/-- The current Bear hashes `pull_changes` builds (excluded notes are
skipped). -/
def bearHashesScoped (hash : String → String) (env : SyncEnv) : SMap String :=
  (env.notes.filter (fun n => !(noteSkipped env.exclude_tags n))).map
    (fun n => (n.uuid, hash n.text))

/-- The current vault-file hashes both orchestrators build: one entry
per tracked note whose file still exists. -/
def obsHashesOf (hash : String → String) (vault : String)
    (state0 : SMap NoteState) (files : SMap String) : SMap String :=
  state0.filterMap (fun p =>
    (SMap.lookup files (pathJoin vault p.2.file_path)).map
      (fun c => (p.1, hash c)))

/-- Accumulator of the `pull_changes` loops. -/
structure PullAcc where
  state : SMap NoteState
  files : SMap String
  dedup : SMap Nat
  pulled : Nat
  newCount : Nat
  errors : List String

/-- One iteration of the pull loop over `changes.new_in_bear`. -/
def pullNewStep (hash : String → String) (env : SyncEnv) (acc : PullAcc)
    (bid : String) : PullAcc :=
  match env.notes.find? (fun n => n.uuid == bid) with
  | none => acc
  | some note =>
    if noteSkipped env.exclude_tags note then acc
    else
      let r := export_note_core hash env note acc.state acc.files acc.dedup
      if r.failed then
        ⟨acc.state, acc.files, r.dedup, acc.pulled, acc.newCount,
          acc.errors ++ ["New " ++ note.title ++ ": write error"]⟩
      else
        ⟨r.state, r.files, r.dedup, acc.pulled, acc.newCount + 1, acc.errors⟩

/-- One iteration of the pull loop over `changes.bear_changed`: the
changed note is re-exported to its existing tracked path. -/
def pullChangedStep (hash : String → String) (env : SyncEnv) (acc : PullAcc)
    (bid : String) : PullAcc :=
  match env.notes.find? (fun n => n.uuid == bid) with
  | none => acc
  | some note =>
    match SMap.lookup acc.state bid with
    | none => acc
    | some ns =>
      let file_path := pathJoin env.vault ns.file_path
      let content := bear_to_obsidian note.text note.uuid note.created
        note.modified note.archived note.pinned
        (some (build_attachment_map note.attachments (parentOfPath file_path)))
      if env.writeFails file_path then
        ⟨acc.state, acc.files, acc.dedup, acc.pulled, acc.newCount,
          acc.errors ++ ["Pull " ++ note.title ++ ": write error"]⟩
      else
        ⟨set_note acc.state note.uuid ns.file_path (hash note.text)
           (hash content),
         (if note.attachments.isEmpty then
            SMap.upsert acc.files file_path content
          else (copy_attachments note.attachments (parentOfPath file_path)
            (SMap.upsert acc.files file_path content)).files),
         acc.dedup, acc.pulled + 1, acc.newCount, acc.errors⟩

/-- Result of a `pull_changes` run.  `saveDoc = some doc` records that
the run called `state.save()`, persisting `doc`. -/
structure PullResult where
  state : SMap NoteState
  files : SMap String
  pulled : Nat
  newCount : Nat
  conflicts : Nat
  errors : List String
  saveDoc : Option String

/-- `pull_changes`: classify against current hashes, export new notes,
re-export Bear-changed notes to their tracked paths, report conflicts,
persist the store. -/
def pull_changes (hash : String → String) (env : SyncEnv)
    (state0 : SMap NoteState) (files0 : SMap String) : PullResult :=
  let dedup0 := registerExisting env.vault state0
  let changes := detect_changes state0 (bearHashesScoped hash env)
    (obsHashesOf hash env.vault state0 files0)
  let acc1 := changes.new_in_bear.foldl (pullNewStep hash env)
    ⟨state0, files0, dedup0, 0, 0, []⟩
  let acc2 := changes.bear_changed.foldl (pullChangedStep hash env) acc1
  ⟨acc2.state, acc2.files, acc2.pulled, acc2.newCount,
    changes.conflicts.length, acc2.errors, some (serializeState acc2.state)⟩

/-- `title = note.title if note else fallback`. -/
def pushTitle (env : SyncEnv) (bid fallback : String) : String :=
  match env.notes.find? (fun n => n.uuid == bid) with
  | some note => note.title
  | none => fallback

/-- Accumulator of the `push_changes` loop. -/
structure PushAcc where
  state : SMap NoteState
  pushed : Nat
  errors : List String
  calls : List (String × String)

/-- One iteration of the push loop over `changes.obsidian_changed`:
read the file, strip the frontmatter, invoke write-back, re-read the
note from Bear to verify, and only then record fresh hashes.  The file
read itself is modelled as infallible here: this is the no-read-failure
path of the loop.  `fp.read_text` (pusher.py line 72) sits outside the
per-note `try`, so a read or decode failure aborts the whole run
uncaught; `pushStepE` models that path with a read-failure oracle. -/
def pushStep (hash : String → String) (env : SyncEnv) (files : SMap String)
    (dry_run : Bool) (acc : PushAcc) (bid : String) : PushAcc :=
  match SMap.lookup acc.state bid with
  | none => acc
  | some ns =>
    match SMap.lookup files (pathJoin env.vault ns.file_path) with
    | none => ⟨acc.state, acc.pushed,
        acc.errors ++ ["File missing: " ++ ns.file_path], acc.calls⟩
    | some obsidian_content =>
      if dry_run then ⟨acc.state, acc.pushed + 1, acc.errors, acc.calls⟩
      else
        let calls1 := acc.calls ++ [(bid, strip_frontmatter obsidian_content)]
        if env.pushOk bid then
          match env.reread bid with
          | some updated_text =>
            ⟨set_note acc.state bid ns.file_path (hash updated_text)
               (hash obsidian_content),
             acc.pushed + 1, acc.errors, calls1⟩
          | none =>
            ⟨acc.state, acc.pushed,
             acc.errors ++ ["Verify failed for: " ++
               pushTitle env bid ns.file_path], calls1⟩
        else
          ⟨acc.state, acc.pushed,
           acc.errors ++ ["Push " ++ pushTitle env bid ns.file_path ++
             ": error"], calls1⟩

/-- Result of a `push_changes` run.  `calls` logs every invocation of
the external write-back, and `saveDoc = some doc` records that the run
called `state.save()`, persisting `doc` — the source calls it
unconditionally, dry run or not (pusher.py line 109). -/
structure PushResult where
  state : SMap NoteState
  pushed : Nat
  conflicts : Nat
  skipped : Nat
  errors : List String
  calls : List (String × String)
  saveDoc : Option String

/-- `push_changes`: classify against current hashes (all Bear notes,
no exclusion filter), report conflicts without acting on them, push
each destination-changed note, persist the store. -/
def push_changes (hash : String → String) (env : SyncEnv)
    (state0 : SMap NoteState) (files : SMap String) (dry_run : Bool) :
    PushResult :=
  let changes := detect_changes state0
    (env.notes.map (fun n => (n.uuid, hash n.text)))
    (obsHashesOf hash env.vault state0 files)
  let acc := changes.obsidian_changed.foldl
    (pushStep hash env files dry_run) ⟨state0, 0, [], []⟩
  ⟨acc.state, acc.pushed, changes.conflicts.length, 0, acc.errors, acc.calls,
    some (serializeState acc.state)⟩

/-- What `push_changes` decides for one destination-changed id, as a
function of the tracked state at the start of the loop (each iteration
touches only its own id, so the decisions are independent). -/
structure PushPlanItem where
  upd : Option (String × NoteState)
  errs : List String
  calls : List (String × String)
  pushedInc : Nat

/-- The decision for one id of `changes.obsidian_changed`. -/
def pushPlanItem (hash : String → String) (env : SyncEnv)
    (files : SMap String) (state0 : SMap NoteState) (dry_run : Bool)
    (bid : String) : PushPlanItem :=
  match SMap.lookup state0 bid with
  | none => ⟨none, [], [], 0⟩
  | some ns =>
    match SMap.lookup files (pathJoin env.vault ns.file_path) with
    | none => ⟨none, ["File missing: " ++ ns.file_path], [], 0⟩
    | some obsidian_content =>
      if dry_run then ⟨none, [], [], 1⟩
      else if env.pushOk bid then
        match env.reread bid with
        | some updated_text =>
          ⟨some (bid, ⟨bid, ns.file_path, hash updated_text,
             hash obsidian_content⟩), [],
           [(bid, strip_frontmatter obsidian_content)], 1⟩
        | none =>
          ⟨none, ["Verify failed for: " ++ pushTitle env bid ns.file_path],
           [(bid, strip_frontmatter obsidian_content)], 0⟩
      else
        ⟨none, ["Push " ++ pushTitle env bid ns.file_path ++ ": error"],
         [(bid, strip_frontmatter obsidian_content)], 0⟩

theorem pushStep_via_plan (hash : String → String) (env : SyncEnv)
    (files : SMap String) (dry_run : Bool) (state0 : SMap NoteState)
    (acc : PushAcc) (bid : String)
    (hlook : SMap.lookup acc.state bid = SMap.lookup state0 bid) :
    pushStep hash env files dry_run acc bid =
      ⟨(match (pushPlanItem hash env files state0 dry_run bid).upd with
        | some q => SMap.upsert acc.state q.1 q.2
        | none => acc.state),
       acc.pushed + (pushPlanItem hash env files state0 dry_run bid).pushedInc,
       acc.errors ++ (pushPlanItem hash env files state0 dry_run bid).errs,
       acc.calls ++ (pushPlanItem hash env files state0 dry_run bid).calls⟩ := by
  unfold pushStep pushPlanItem
  rw [hlook]
  cases hns : SMap.lookup state0 bid with
  | none => simp [hns]
  | some ns =>
    cases hc : SMap.lookup files (pathJoin env.vault ns.file_path) with
    | none => simp [hns, hc]
    | some content =>
      by_cases hdry : dry_run = true
      · simp [hns, hc, hdry]
      · rw [Bool.not_eq_true] at hdry
        by_cases hok : env.pushOk bid = true
        · cases hr : env.reread bid with
          | some u => simp [hns, hc, hdry, hok, hr, set_note]
          | none => simp [hns, hc, hdry, hok, hr]
        · rw [Bool.not_eq_true] at hok
          simp [hns, hc, hdry, hok]

theorem pushPlanItem_upd_key (hash : String → String) (env : SyncEnv)
    (files : SMap String) (state0 : SMap NoteState) (dry_run : Bool)
    (bid : String) (q : String × NoteState)
    (h : (pushPlanItem hash env files state0 dry_run bid).upd = some q) :
    q.1 = bid := by
  revert h
  unfold pushPlanItem
  cases SMap.lookup state0 bid with
  | none =>
    intro h
    cases h
  | some ns =>
    dsimp only
    cases SMap.lookup files (pathJoin env.vault ns.file_path) with
    | none =>
      intro h
      cases h
    | some content =>
      dsimp only
      by_cases hdry : dry_run = true
      · rw [if_pos hdry]
        intro h
        cases h
      · rw [if_neg hdry]
        by_cases hok : env.pushOk bid = true
        · rw [if_pos hok]
          cases env.reread bid with
          | some u =>
            dsimp only
            intro h
            injection h with h
            rw [← h]
          | none =>
            intro h
            cases h
        · rw [if_neg hok]
          intro h
          cases h

theorem pushPlanItem_calls_key (hash : String → String) (env : SyncEnv)
    (files : SMap String) (state0 : SMap NoteState) (dry_run : Bool)
    (bid : String) (w : String × String)
    (h : w ∈ (pushPlanItem hash env files state0 dry_run bid).calls) :
    w.1 = bid := by
  revert h
  unfold pushPlanItem
  cases SMap.lookup state0 bid with
  | none =>
    intro h
    cases h
  | some ns =>
    dsimp only
    cases SMap.lookup files (pathJoin env.vault ns.file_path) with
    | none =>
      intro h
      simp at h
    | some content =>
      dsimp only
      by_cases hdry : dry_run = true
      · rw [if_pos hdry]
        intro h
        cases h
      · rw [if_neg hdry]
        by_cases hok : env.pushOk bid = true
        · rw [if_pos hok]
          cases env.reread bid with
          | some u =>
            dsimp only
            intro h
            simp at h
            rw [h]
          | none =>
            dsimp only
            intro h
            simp at h
            rw [h]
        · rw [if_neg hok]
          intro h
          simp at h
          rw [h]

theorem push_fold_spec (hash : String → String) (env : SyncEnv)
    (files : SMap String) (dry_run : Bool) (state0 : SMap NoteState) :
    ∀ (bids : List String) (acc : PushAcc), bids.Nodup →
      (∀ b ∈ bids, SMap.lookup acc.state b = SMap.lookup state0 b) →
      ((bids.foldl (pushStep hash env files dry_run) acc).state =
        SMap.applyAll acc.state (bids.filterMap (fun b =>
          (pushPlanItem hash env files state0 dry_run b).upd))) ∧
      ((bids.foldl (pushStep hash env files dry_run) acc).errors =
        acc.errors ++ bids.foldr (fun b l =>
          (pushPlanItem hash env files state0 dry_run b).errs ++ l) []) ∧
      ((bids.foldl (pushStep hash env files dry_run) acc).calls =
        acc.calls ++ bids.foldr (fun b l =>
          (pushPlanItem hash env files state0 dry_run b).calls ++ l) []) := by
  intro bids
  induction bids with
  | nil =>
    intro acc _ _
    exact ⟨rfl, by simp, by simp⟩
  | cons b rest ih =>
    intro acc hnod hlook
    rw [List.foldl_cons,
      pushStep_via_plan hash env files dry_run state0 acc b
        (hlook b (List.mem_cons_self _ _))]
    have hnod' : rest.Nodup := (List.nodup_cons.1 hnod).2
    have hbnot : b ∉ rest := (List.nodup_cons.1 hnod).1
    have hlook' : ∀ b' ∈ rest,
        SMap.lookup (match (pushPlanItem hash env files state0 dry_run b).upd
          with
          | some q => SMap.upsert acc.state q.1 q.2
          | none => acc.state) b' = SMap.lookup state0 b' := by
      intro b' hb'
      cases hupd : (pushPlanItem hash env files state0 dry_run b).upd with
      | none => exact hlook b' (List.mem_cons_of_mem _ hb')
      | some q =>
        have hq : q.1 = b :=
          pushPlanItem_upd_key hash env files state0 dry_run b q hupd
        rw [SMap.lookup_upsert, hq]
        have hne : ¬ b = b' := fun he => hbnot (he ▸ hb')
        rw [if_neg hne]
        exact hlook b' (List.mem_cons_of_mem _ hb')
    have hih := ih ⟨(match (pushPlanItem hash env files state0 dry_run b).upd
        with
        | some q => SMap.upsert acc.state q.1 q.2
        | none => acc.state),
      acc.pushed + (pushPlanItem hash env files state0 dry_run b).pushedInc,
      acc.errors ++ (pushPlanItem hash env files state0 dry_run b).errs,
      acc.calls ++ (pushPlanItem hash env files state0 dry_run b).calls⟩
      hnod' hlook'
    refine ⟨?_, ?_, ?_⟩
    · rw [hih.1]
      rw [List.filterMap_cons]
      cases hupd : (pushPlanItem hash env files state0 dry_run b).upd with
      | none => rfl
      | some q => rfl
    · rw [hih.2.1, List.foldr_cons]
      simp [List.append_assoc]
    · rw [hih.2.2, List.foldr_cons]
      simp [List.append_assoc]

theorem detect_obsidian_changed_nodup (tracked : SMap NoteState)
    (bear obs : SMap String) :
    (detect_changes tracked bear obs).obsidian_changed.Nodup :=
  nodup_sortStr (((List.nodup_dedup _).filter _).filter _)

theorem push_changes_state (hash : String → String) (env : SyncEnv)
    (state0 : SMap NoteState) (files : SMap String) (dry_run : Bool) :
    (push_changes hash env state0 files dry_run).state =
      ((detect_changes state0 (env.notes.map (fun n => (n.uuid, hash n.text)))
        (obsHashesOf hash env.vault state0 files)).obsidian_changed.foldl
        (pushStep hash env files dry_run) ⟨state0, 0, [], []⟩).state := rfl

theorem push_changes_errors (hash : String → String) (env : SyncEnv)
    (state0 : SMap NoteState) (files : SMap String) (dry_run : Bool) :
    (push_changes hash env state0 files dry_run).errors =
      ((detect_changes state0 (env.notes.map (fun n => (n.uuid, hash n.text)))
        (obsHashesOf hash env.vault state0 files)).obsidian_changed.foldl
        (pushStep hash env files dry_run) ⟨state0, 0, [], []⟩).errors := rfl

theorem push_changes_calls (hash : String → String) (env : SyncEnv)
    (state0 : SMap NoteState) (files : SMap String) (dry_run : Bool) :
    (push_changes hash env state0 files dry_run).calls =
      ((detect_changes state0 (env.notes.map (fun n => (n.uuid, hash n.text)))
        (obsHashesOf hash env.vault state0 files)).obsidian_changed.foldl
        (pushStep hash env files dry_run) ⟨state0, 0, [], []⟩).calls := rfl

theorem push_changes_saveDoc (hash : String → String) (env : SyncEnv)
    (state0 : SMap NoteState) (files : SMap String) (dry_run : Bool) :
    (push_changes hash env state0 files dry_run).saveDoc =
      some (serializeState (push_changes hash env state0 files dry_run).state) :=
  rfl

theorem mem_keys_filterMap_upd (hash : String → String) (env : SyncEnv)
    (files : SMap String) (state0 : SMap NoteState) (dry_run : Bool) :
    ∀ (bids : List String) (k : String),
      k ∈ (bids.filterMap (fun b =>
        (pushPlanItem hash env files state0 dry_run b).upd)).map Prod.fst →
      k ∈ bids := by
  intro bids
  induction bids with
  | nil => intro k hk; simp at hk
  | cons b rest ih =>
    intro k hk
    rw [List.filterMap_cons] at hk
    cases hupd : (pushPlanItem hash env files state0 dry_run b).upd with
    | none =>
      rw [hupd] at hk
      exact List.mem_cons_of_mem _ (ih k hk)
    | some q =>
      rw [hupd] at hk
      rcases List.mem_cons.1 hk with hk' | hk'
      · rw [hk']
        rw [pushPlanItem_upd_key hash env files state0 dry_run b q hupd]
        exact List.mem_cons_self _ _
      · exact List.mem_cons_of_mem _ (ih k hk')

theorem lastVal_cons' {α : Type} (p : String × α) (rest : List (String × α))
    (k : String) :
    SMap.lastVal (p :: rest) k =
      match SMap.lastVal rest k with
      | some v => some v
      | none => if p.1 = k then some p.2 else none := rfl

theorem lastVal_filterMap_upd (hash : String → String) (env : SyncEnv)
    (files : SMap String) (state0 : SMap NoteState) (dry_run : Bool) :
    ∀ (bids : List String), bids.Nodup → ∀ bid ∈ bids,
      SMap.lastVal (bids.filterMap (fun b =>
        (pushPlanItem hash env files state0 dry_run b).upd)) bid =
      ((pushPlanItem hash env files state0 dry_run bid).upd).map Prod.snd := by
  intro bids
  induction bids with
  | nil => intro _ bid hbid; simp at hbid
  | cons b rest ih =>
    intro hnod bid hbid
    have hbnot : b ∉ rest := (List.nodup_cons.1 hnod).1
    have hnod' : rest.Nodup := (List.nodup_cons.1 hnod).2
    rw [List.filterMap_cons]
    rcases List.mem_cons.1 hbid with rfl | hbid'
    · have hrest : SMap.lastVal (rest.filterMap (fun b =>
          (pushPlanItem hash env files state0 dry_run b).upd)) bid = none := by
        apply SMap.lastVal_eq_none_of_not_mem
        intro hcon
        exact hbnot (mem_keys_filterMap_upd hash env files state0 dry_run
          rest bid hcon)
      cases hupd : (pushPlanItem hash env files state0 dry_run bid).upd with
      | none =>
        dsimp only
        rw [hrest]
        rfl
      | some q =>
        dsimp only
        rw [lastVal_cons', hrest]
        rw [pushPlanItem_upd_key hash env files state0 dry_run bid q hupd]
        simp
    · have hne : bid ≠ b := fun he => hbnot (he ▸ hbid')
      cases hupd : (pushPlanItem hash env files state0 dry_run b).upd with
      | none =>
        dsimp only
        exact ih hnod' bid hbid'
      | some q =>
        dsimp only
        rw [lastVal_cons', ih hnod' bid hbid']
        cases hv : ((pushPlanItem hash env files state0 dry_run bid).upd).map
            Prod.snd with
        | some v => rfl
        | none =>
          have hq : q.1 = b :=
            pushPlanItem_upd_key hash env files state0 dry_run b q hupd
          rw [hq]
          exact if_neg (fun he => hne he.symm)

theorem mem_foldr_append {α β : Type} (g : α → List β) :
    ∀ (l : List α) (x : β) (a : α), a ∈ l → x ∈ g a →
      x ∈ l.foldr (fun b acc => g b ++ acc) [] := by
  intro l
  induction l with
  | nil => intro x a ha; simp at ha
  | cons b rest ih =>
    intro x a ha hx
    rw [List.foldr_cons, List.mem_append]
    rcases List.mem_cons.1 ha with rfl | ha'
    · exact Or.inl hx
    · exact Or.inr (ih x a ha' hx)

theorem mem_of_mem_foldr_append {α β : Type} (g : α → List β) :
    ∀ (l : List α) (x : β),
      x ∈ l.foldr (fun b acc => g b ++ acc) [] → ∃ a ∈ l, x ∈ g a := by
  intro l
  induction l with
  | nil => intro x hx; simp at hx
  | cons b rest ih =>
    intro x hx
    rw [List.foldr_cons, List.mem_append] at hx
    rcases hx with hx | hx
    · exact ⟨b, List.mem_cons_self _ _, hx⟩
    · obtain ⟨a, ha, hxa⟩ := ih x hx
      exact ⟨a, List.mem_cons_of_mem _ ha, hxa⟩

theorem foldr_append_eq_nil {α β : Type} (g : α → List β) :
    ∀ (l : List α), (∀ a ∈ l, g a = []) →
      l.foldr (fun b acc => g b ++ acc) [] = [] := by
  intro l
  induction l with
  | nil => intro _; rfl
  | cons b rest ih =>
    intro h
    rw [List.foldr_cons, h b (List.mem_cons_self _ _), List.nil_append]
    exact ih (fun a ha => h a (List.mem_cons_of_mem _ ha))

theorem pushPlanItem_dry (hash : String → String) (env : SyncEnv)
    (files : SMap String) (state0 : SMap NoteState) (bid : String) :
    (pushPlanItem hash env files state0 true bid).upd = none ∧
    (pushPlanItem hash env files state0 true bid).calls = [] := by
  unfold pushPlanItem
  cases SMap.lookup state0 bid with
  | none => exact ⟨rfl, rfl⟩
  | some ns =>
    dsimp only
    cases SMap.lookup files (pathJoin env.vault ns.file_path) with
    | none => exact ⟨rfl, rfl⟩
    | some content =>
      dsimp only
      rw [if_pos rfl]
      exact ⟨rfl, rfl⟩
/-- C9: when `push_changes` runs in dry-run mode it makes no external
write-back call and mutates no note's entry in the state store — but,
contrary to the claim, it still persists the store (pusher.py line 109
runs `state.save()` unconditionally), writing out the untouched state. -/
theorem c9_dry_run_no_writeback_but_persists (hash : String → String)
    (env : SyncEnv) (state0 : SMap NoteState) (files : SMap String) :
    (push_changes hash env state0 files true).calls = [] ∧
    (push_changes hash env state0 files true).state = state0 ∧
    (push_changes hash env state0 files true).saveDoc =
      some (serializeState state0) := by
  have hnod := detect_obsidian_changed_nodup state0
    (env.notes.map (fun n => (n.uuid, hash n.text)))
    (obsHashesOf hash env.vault state0 files)
  have hfold := push_fold_spec hash env files true state0
    (detect_changes state0 (env.notes.map (fun n => (n.uuid, hash n.text)))
      (obsHashesOf hash env.vault state0 files)).obsidian_changed
    ⟨state0, 0, [], []⟩ hnod (fun _ _ => rfl)
  have hstate : (push_changes hash env state0 files true).state = state0 := by
    rw [push_changes_state, hfold.1]
    rw [List.filterMap_eq_nil_iff.2 (fun b _ =>
      (pushPlanItem_dry hash env files state0 b).1)]
    rfl
  refine ⟨?_, hstate, ?_⟩
  · rw [push_changes_calls, hfold.2.2, List.nil_append]
    exact foldr_append_eq_nil _ _ (fun b _ =>
      (pushPlanItem_dry hash env files state0 b).2)
  · rw [push_changes_saveDoc, hstate]

/-- C9 counterexample to the original claim's "does not persist the
state store at all": a concrete dry run still produces a persisted
state document (`saveDoc ≠ none`). -/
theorem c9_dry_run_still_saves_counterexample :
    (push_changes (fun s => s)
      ⟨"v", [], [], fun _ => false, fun _ => none, fun _ => true⟩
      [] [] true).saveDoc ≠ none := by decide
theorem pushPlanItem_verify_ok (hash : String → String) (env : SyncEnv)
    (files : SMap String) (state0 : SMap NoteState) (bid : String)
    (ns : NoteState) (content u : String)
    (hns : SMap.lookup state0 bid = some ns)
    (hfile : SMap.lookup files (pathJoin env.vault ns.file_path) =
      some content)
    (hok : env.pushOk bid = true)
    (hr : env.reread bid = some u) :
    pushPlanItem hash env files state0 false bid =
      ⟨some (bid, ⟨bid, ns.file_path, hash u, hash content⟩), [],
       [(bid, strip_frontmatter content)], 1⟩ := by
  simp [pushPlanItem, hns, hfile, hok, hr]

theorem pushPlanItem_verify_fail (hash : String → String) (env : SyncEnv)
    (files : SMap String) (state0 : SMap NoteState) (bid : String)
    (ns : NoteState) (content : String)
    (hns : SMap.lookup state0 bid = some ns)
    (hfile : SMap.lookup files (pathJoin env.vault ns.file_path) =
      some content)
    (hok : env.pushOk bid = true)
    (hr : env.reread bid = none) :
    pushPlanItem hash env files state0 false bid =
      ⟨none, ["Verify failed for: " ++ pushTitle env bid ns.file_path],
       [(bid, strip_frontmatter content)], 0⟩ := by
  simp [pushPlanItem, hns, hfile, hok, hr]
/-- C7: for a destination-changed note pushed for real (not a dry run)
whose tracked entry and destination file both resolve and whose
write-back succeeds, `push_changes` re-reads the note from the source
store: if the re-read returns text `u`, the stored entry becomes
(fresh source hash `hash u`, pushed document hash `hash content`) —
not a hash of the pushed (stripped) text; if the re-read fails, a
"Verify failed" error is recorded and the entry is left unchanged.
In both cases the write-back was invoked with the stripped content. -/
theorem c7_push_verifies_by_reread (hash : String → String) (env : SyncEnv)
    (state0 : SMap NoteState) (files : SMap String) (bid : String)
    (ns : NoteState) (content : String)
    (hmem : bid ∈ (detect_changes state0
      (env.notes.map (fun n => (n.uuid, hash n.text)))
      (obsHashesOf hash env.vault state0 files)).obsidian_changed)
    (hns : SMap.lookup state0 bid = some ns)
    (hfile : SMap.lookup files (pathJoin env.vault ns.file_path) =
      some content)
    (hok : env.pushOk bid = true) :
    (∀ u, env.reread bid = some u →
      SMap.lookup (push_changes hash env state0 files false).state bid =
        some ⟨bid, ns.file_path, hash u, hash content⟩ ∧
      (bid, strip_frontmatter content) ∈
        (push_changes hash env state0 files false).calls) ∧
    (env.reread bid = none →
      SMap.lookup (push_changes hash env state0 files false).state bid =
        SMap.lookup state0 bid ∧
      ("Verify failed for: " ++ pushTitle env bid ns.file_path) ∈
        (push_changes hash env state0 files false).errors ∧
      (bid, strip_frontmatter content) ∈
        (push_changes hash env state0 files false).calls) := by
  have hnod := detect_obsidian_changed_nodup state0
    (env.notes.map (fun n => (n.uuid, hash n.text)))
    (obsHashesOf hash env.vault state0 files)
  have hfold := push_fold_spec hash env files false state0
    (detect_changes state0 (env.notes.map (fun n => (n.uuid, hash n.text)))
      (obsHashesOf hash env.vault state0 files)).obsidian_changed
    ⟨state0, 0, [], []⟩ hnod (fun _ _ => rfl)
  have hlast := lastVal_filterMap_upd hash env files state0 false
    (detect_changes state0 (env.notes.map (fun n => (n.uuid, hash n.text)))
      (obsHashesOf hash env.vault state0 files)).obsidian_changed
    hnod bid hmem
  constructor
  · intro u hr
    have hitem := pushPlanItem_verify_ok hash env files state0 bid ns
      content u hns hfile hok hr
    constructor
    · rw [push_changes_state, hfold.1, SMap.lookup_applyAll, hlast, hitem]
      rfl
    · rw [push_changes_calls, hfold.2.2, List.nil_append]
      refine mem_foldr_append _ _ _ bid hmem ?_
      rw [hitem]
      exact List.mem_singleton.2 rfl
  · intro hr
    have hitem := pushPlanItem_verify_fail hash env files state0 bid ns
      content hns hfile hok hr
    refine ⟨?_, ?_, ?_⟩
    · rw [push_changes_state, hfold.1, SMap.lookup_applyAll, hlast, hitem]
      rfl
    · rw [push_changes_errors, hfold.2.1, List.nil_append]
      refine mem_foldr_append _ _ _ bid hmem ?_
      rw [hitem]
      exact List.mem_singleton.2 rfl
    · rw [push_changes_calls, hfold.2.2, List.nil_append]
      refine mem_foldr_append _ _ _ bid hmem ?_
      rw [hitem]
      exact List.mem_singleton.2 rfl
def c7EnvW : SyncEnv :=
  ⟨"v", [⟨"b1", "T", "old", 0, 0, false, false, [], []⟩], [],
   fun _ => false, fun _ => some "new", fun _ => true⟩

def c7StateW : SMap NoteState := [("b1", ⟨"b1", "n.md", "old", "x"⟩)]

def c7FilesW : SMap String := [("v/n.md", "body")]

theorem c7_push_verifies_by_reread_witness :
    "b1" ∈ (detect_changes c7StateW
      (c7EnvW.notes.map (fun n => (n.uuid, (fun s => s) n.text)))
      (obsHashesOf (fun s => s) c7EnvW.vault c7StateW
        c7FilesW)).obsidian_changed ∧
    SMap.lookup
      (push_changes (fun s => s) c7EnvW c7StateW c7FilesW false).state "b1" =
      some ⟨"b1", "n.md", "new", "body"⟩ :=
  ⟨by decide,
   ((c7_push_verifies_by_reread (fun s => s) c7EnvW c7StateW c7FilesW "b1"
      ⟨"b1", "n.md", "old", "x"⟩ "body" (by decide) (by decide) (by decide)
      rfl).1 "new" rfl).1⟩
theorem pushPlanItem_calls_eq (hash : String → String) (env : SyncEnv)
    (files : SMap String) (state0 : SMap NoteState) (bid : String)
    (ns : NoteState) (content : String)
    (hns : SMap.lookup state0 bid = some ns)
    (hfile : SMap.lookup files (pathJoin env.vault ns.file_path) =
      some content) :
    (pushPlanItem hash env files state0 false bid).calls =
      [(bid, strip_frontmatter content)] := by
  by_cases hok : env.pushOk bid = true
  · cases hr : env.reread bid with
    | some u => simp [pushPlanItem, hns, hfile, hok, hr]
    | none => simp [pushPlanItem, hns, hfile, hok, hr]
  · simp [pushPlanItem, hns, hfile, hok]

/-- C10: `strip_frontmatter` is the identity on any text that does not
start with `"---\n"` or that has no `"\n---\n"` occurrence at index
≥ 4; consequently, for a destination-changed note whose file holds
such malformed text, `push_changes` (not a dry run) invokes the
write-back with the entire file content as the note body. -/
theorem c10_strip_frontmatter_malformed_passthrough (hash : String → String)
    (env : SyncEnv) (state0 : SMap NoteState) (files : SMap String)
    (bid : String) (ns : NoteState) (content : String)
    (hmal : ¬ (List.isPrefixOf "---\n".data content.data = true) ∨
      findSubFrom content.data "\n---\n".data 4 = none) :
    strip_frontmatter content = content ∧
    (bid ∈ (detect_changes state0
        (env.notes.map (fun n => (n.uuid, hash n.text)))
        (obsHashesOf hash env.vault state0 files)).obsidian_changed →
      SMap.lookup state0 bid = some ns →
      SMap.lookup files (pathJoin env.vault ns.file_path) = some content →
      (bid, content) ∈ (push_changes hash env state0 files false).calls) := by
  have hid : strip_frontmatter content = content := by
    unfold strip_frontmatter
    rcases hmal with hmal | hmal
    · rw [if_neg hmal]
    · by_cases hpre : List.isPrefixOf "---\n".data content.data = true
      · rw [if_pos hpre, hmal]
      · rw [if_neg hpre]
  refine ⟨hid, ?_⟩
  intro hmem hns hfile
  have hnod := detect_obsidian_changed_nodup state0
    (env.notes.map (fun n => (n.uuid, hash n.text)))
    (obsHashesOf hash env.vault state0 files)
  have hfold := push_fold_spec hash env files false state0
    (detect_changes state0 (env.notes.map (fun n => (n.uuid, hash n.text)))
      (obsHashesOf hash env.vault state0 files)).obsidian_changed
    ⟨state0, 0, [], []⟩ hnod (fun _ _ => rfl)
  rw [push_changes_calls, hfold.2.2, List.nil_append]
  refine mem_foldr_append _ _ _ bid hmem ?_
  rw [pushPlanItem_calls_eq hash env files state0 bid ns content hns hfile]
  rw [hid]
  exact List.mem_singleton.2 rfl

def c10EnvW : SyncEnv :=
  ⟨"v", [⟨"b1", "T", "old", 0, 0, false, false, [], []⟩], [],
   fun _ => false, fun _ => some "new", fun _ => true⟩

def c10StateW : SMap NoteState := [("b1", ⟨"b1", "n.md", "old", "x"⟩)]

def c10FilesW : SMap String := [("v/n.md", "body")]

theorem c10_strip_frontmatter_malformed_passthrough_witness :
    List.isPrefixOf "---\n".data "body".data = false ∧
    strip_frontmatter "body" = "body" ∧
    ("b1", "body") ∈
      (push_changes (fun s => s) c10EnvW c10StateW c10FilesW false).calls := by
  have h := c10_strip_frontmatter_malformed_passthrough (fun s => s) c10EnvW
    c10StateW c10FilesW "b1" ⟨"b1", "n.md", "old", "x"⟩ "body"
    (Or.inl (by decide))
  exact ⟨by decide, h.1, h.2 (by decide) (by decide) rfl⟩
def c4EnvW : SyncEnv :=
  ⟨"v", [⟨"b1", "My Note", "hello", 0, 0, false, false, [], []⟩], [],
   fun _ => false, fun _ => none, fun _ => true⟩

theorem c4_export_all_idempotent_witness :
    (SMap.keysOf ([] : SMap NoteState)).Nodup ∧
    (export_all (fun s => s) c4EnvW
        (export_all (fun s => s) c4EnvW [] []).state
        (export_all (fun s => s) c4EnvW [] []).files).state =
      (export_all (fun s => s) c4EnvW [] []).state :=
  ⟨by decide, (c4_export_all_idempotent (fun s => s) c4EnvW [] []
    (by decide)).1⟩
theorem pullNewStep_lookup (hash : String → String) (env : SyncEnv)
    (acc : PullAcc) (bid cid : String) (hne : bid ≠ cid) :
    SMap.lookup (pullNewStep hash env acc bid).state cid =
      SMap.lookup acc.state cid := by
  unfold pullNewStep
  cases hf : env.notes.find? (fun n => n.uuid == bid) with
  | none => rfl
  | some note =>
    have huuid : note.uuid = bid := by
      have hp := List.find?_some hf
      simpa using hp
    dsimp only
    by_cases hskip : noteSkipped env.exclude_tags note = true
    · rw [if_pos hskip]
    · rw [if_neg hskip]
      by_cases hfail : env.writeFails (notePath env acc.dedup note) = true
      · simp [export_note_core, hfail]
      · simp [export_note_core, hfail, set_note, SMap.lookup_upsert, huuid, hne]

theorem pullChangedStep_lookup (hash : String → String) (env : SyncEnv)
    (acc : PullAcc) (bid cid : String) (hne : bid ≠ cid) :
    SMap.lookup (pullChangedStep hash env acc bid).state cid =
      SMap.lookup acc.state cid := by
  unfold pullChangedStep
  cases hf : env.notes.find? (fun n => n.uuid == bid) with
  | none => rfl
  | some note =>
    have huuid : note.uuid = bid := by
      have hp := List.find?_some hf
      simpa using hp
    dsimp only
    cases hns : SMap.lookup acc.state bid with
    | none => rfl
    | some ns =>
      dsimp only
      by_cases hfail : env.writeFails (pathJoin env.vault ns.file_path) = true
      · simp [hfail]
      · simp [hfail, set_note, SMap.lookup_upsert, huuid, hne]

theorem pull_foldl_new_preserves (hash : String → String) (env : SyncEnv) :
    ∀ (bids : List String) (acc : PullAcc) (cid : String), cid ∉ bids →
      SMap.lookup ((bids.foldl (pullNewStep hash env) acc).state) cid =
        SMap.lookup acc.state cid := by
  intro bids
  induction bids with
  | nil => intro acc cid _; rfl
  | cons b rest ih =>
    intro acc cid hcid
    rw [List.foldl_cons]
    have hne : b ≠ cid := fun he => hcid (he ▸ List.mem_cons_self _ _)
    rw [ih (pullNewStep hash env acc b) cid
      (fun hmem => hcid (List.mem_cons_of_mem _ hmem))]
    exact pullNewStep_lookup hash env acc b cid hne

theorem pull_foldl_changed_preserves (hash : String → String) (env : SyncEnv) :
    ∀ (bids : List String) (acc : PullAcc) (cid : String), cid ∉ bids →
      SMap.lookup ((bids.foldl (pullChangedStep hash env) acc).state) cid =
        SMap.lookup acc.state cid := by
  intro bids
  induction bids with
  | nil => intro acc cid _; rfl
  | cons b rest ih =>
    intro acc cid hcid
    rw [List.foldl_cons]
    have hne : b ≠ cid := fun he => hcid (he ▸ List.mem_cons_self _ _)
    rw [ih (pullChangedStep hash env acc b) cid
      (fun hmem => hcid (List.mem_cons_of_mem _ hmem))]
    exact pullChangedStep_lookup hash env acc b cid hne

theorem pull_changes_state (hash : String → String) (env : SyncEnv)
    (state0 : SMap NoteState) (files0 : SMap String) :
    (pull_changes hash env state0 files0).state =
      ((detect_changes state0 (bearHashesScoped hash env)
        (obsHashesOf hash env.vault state0 files0)).bear_changed.foldl
        (pullChangedStep hash env)
        ((detect_changes state0 (bearHashesScoped hash env)
          (obsHashesOf hash env.vault state0 files0)).new_in_bear.foldl
          (pullNewStep hash env)
          ⟨state0, files0, registerExisting env.vault state0, 0, 0, []⟩)).state :=
  rfl
theorem classify_note_conflict {tracked : SMap NoteState}
    {bear obs : SMap String} {a : String} {st : NoteState} {cb : String}
    (hst : SMap.lookup tracked a = some st)
    (hcb : SMap.lookup bear a = some cb)
    (hd : cb ≠ st.bear_hash)
    (ho : (SMap.lookup obs a).getD st.obsidian_hash ≠ st.obsidian_hash) :
    classify_note tracked bear obs a = some .conflict := by
  rw [classify_note_eq hst hcb, if_pos hd, if_pos ho]

/-- C1: a tracked note whose current source hash and current
destination hash both differ from the stored ones is reported in
`conflicts` by both orchestrators' classifications, its stored
`NoteState` survives both `pull_changes` and `push_changes` untouched,
and `push_changes` never invokes the external write-back for it. -/
theorem c1_conflicts_are_skipped (hash : String → String) (env : SyncEnv)
    (state0 : SMap NoteState) (files0 files : SMap String) (dry_run : Bool)
    (cid : String) (st : NoteState) (cbPull cbPush : String)
    (hst : SMap.lookup state0 cid = some st)
    (hcbP : SMap.lookup (bearHashesScoped hash env) cid = some cbPull)
    (hdP : cbPull ≠ st.bear_hash)
    (hoP : (SMap.lookup (obsHashesOf hash env.vault state0 files0) cid).getD
      st.obsidian_hash ≠ st.obsidian_hash)
    (hcbQ : SMap.lookup (env.notes.map (fun n => (n.uuid, hash n.text))) cid =
      some cbPush)
    (hdQ : cbPush ≠ st.bear_hash)
    (hoQ : (SMap.lookup (obsHashesOf hash env.vault state0 files) cid).getD
      st.obsidian_hash ≠ st.obsidian_hash) :
    cid ∈ (detect_changes state0 (bearHashesScoped hash env)
      (obsHashesOf hash env.vault state0 files0)).conflicts ∧
    cid ∈ (detect_changes state0
      (env.notes.map (fun n => (n.uuid, hash n.text)))
      (obsHashesOf hash env.vault state0 files)).conflicts ∧
    SMap.lookup (pull_changes hash env state0 files0).state cid = some st ∧
    SMap.lookup (push_changes hash env state0 files dry_run).state cid =
      some st ∧
    (∀ w ∈ (push_changes hash env state0 files dry_run).calls, w.1 ≠ cid) := by
  have hconfP : cid ∈ (detect_changes state0 (bearHashesScoped hash env)
      (obsHashesOf hash env.vault state0 files0)).conflicts :=
    (mem_conflicts_iff _ _ _ _).2
      ⟨SMap.mem_keysOf_of_lookup_eq_some hst,
       SMap.mem_keysOf_of_lookup_eq_some hcbP,
       classify_note_conflict hst hcbP hdP hoP⟩
  have hconfQ : cid ∈ (detect_changes state0
      (env.notes.map (fun n => (n.uuid, hash n.text)))
      (obsHashesOf hash env.vault state0 files)).conflicts :=
    (mem_conflicts_iff _ _ _ _).2
      ⟨SMap.mem_keysOf_of_lookup_eq_some hst,
       SMap.mem_keysOf_of_lookup_eq_some hcbQ,
       classify_note_conflict hst hcbQ hdQ hoQ⟩
  have hnotNew : cid ∉ (detect_changes state0 (bearHashesScoped hash env)
      (obsHashesOf hash env.vault state0 files0)).new_in_bear := by
    intro hmem
    exact ((mem_new_in_bear_iff _ _ _ _).1 hmem).2
      (SMap.mem_keysOf_of_lookup_eq_some hst)
  have hnotBC : cid ∉ (detect_changes state0 (bearHashesScoped hash env)
      (obsHashesOf hash env.vault state0 files0)).bear_changed := by
    intro hmem
    have hcls := ((mem_bear_changed_iff _ _ _ _).1 hmem).2.2
    rw [classify_note_conflict hst hcbP hdP hoP] at hcls
    simp at hcls
  have hnotOC : cid ∉ (detect_changes state0
      (env.notes.map (fun n => (n.uuid, hash n.text)))
      (obsHashesOf hash env.vault state0 files)).obsidian_changed := by
    intro hmem
    have hcls := ((mem_obsidian_changed_iff _ _ _ _).1 hmem).2.2
    rw [classify_note_conflict hst hcbQ hdQ hoQ] at hcls
    simp at hcls
  have hpull : SMap.lookup (pull_changes hash env state0 files0).state cid =
      some st := by
    rw [pull_changes_state,
      pull_foldl_changed_preserves hash env _ _ cid hnotBC,
      pull_foldl_new_preserves hash env _ _ cid hnotNew]
    exact hst
  have hnod := detect_obsidian_changed_nodup state0
    (env.notes.map (fun n => (n.uuid, hash n.text)))
    (obsHashesOf hash env.vault state0 files)
  have hfold := push_fold_spec hash env files dry_run state0
    (detect_changes state0 (env.notes.map (fun n => (n.uuid, hash n.text)))
      (obsHashesOf hash env.vault state0 files)).obsidian_changed
    ⟨state0, 0, [], []⟩ hnod (fun _ _ => rfl)
  have hpush : SMap.lookup (push_changes hash env state0 files dry_run).state
      cid = some st := by
    rw [push_changes_state, hfold.1,
      SMap.lookup_applyAll_of_not_mem _ (fun hmem => hnotOC
        (mem_keys_filterMap_upd hash env files state0 dry_run _ cid hmem))]
    exact hst
  refine ⟨hconfP, hconfQ, hpull, hpush, ?_⟩
  intro w hw
  rw [push_changes_calls, hfold.2.2, List.nil_append] at hw
  obtain ⟨b, hb, hwb⟩ := mem_of_mem_foldr_append _ _ _ hw
  have hwk : w.1 = b := pushPlanItem_calls_key hash env files state0 dry_run
    b w hwb
  intro hcontra
  exact hnotOC (hcontra ▸ hwk ▸ hb)
def c1EnvW : SyncEnv :=
  ⟨"v", [⟨"c1", "T", "newb", 0, 0, false, false, [], []⟩], [],
   fun _ => false, fun _ => some "z", fun _ => true⟩

def c1StateW : SMap NoteState := [("c1", ⟨"c1", "n.md", "oldb", "oldo"⟩)]

def c1FilesW : SMap String := [("v/n.md", "newo")]

theorem c1_conflicts_are_skipped_witness :
    SMap.lookup c1StateW "c1" = some ⟨"c1", "n.md", "oldb", "oldo"⟩ ∧
    "c1" ∈ (detect_changes c1StateW (bearHashesScoped (fun s => s) c1EnvW)
      (obsHashesOf (fun s => s) c1EnvW.vault c1StateW c1FilesW)).conflicts ∧
    SMap.lookup (pull_changes (fun s => s) c1EnvW c1StateW c1FilesW).state
      "c1" = some ⟨"c1", "n.md", "oldb", "oldo"⟩ := by
  have h := c1_conflicts_are_skipped (fun s => s) c1EnvW c1StateW c1FilesW
    c1FilesW false "c1" ⟨"c1", "n.md", "oldb", "oldo"⟩ "newb" "newb"
    (by decide) (by decide) (by decide) (by decide) (by decide) (by decide)
    (by decide)
  exact ⟨by decide, h.1, h.2.2.1⟩
theorem noNlDash_nlBlock {tail : List Char} (hnl : ∀ c ∈ tail, c ≠ '\n')
    (hhead : tail.head? ≠ some '-') :
    noNlDash ('\n' :: tail) = true := by
  cases tail with
  | nil => rfl
  | cons c rest =>
    unfold noNlDash
    rw [Bool.and_eq_true]
    refine ⟨?_, noNlDash_of_no_nl hnl⟩
    have hc : c ≠ '-' := by simpa using hhead
    simp [hc]

theorem replaceSubAux_not_mem {p : Char} (rep : List Char) :
    ∀ (fuel : Nat) (s : List Char), p ∉ s →
      replaceSubAux [p] rep fuel s = s := by
  intro fuel
  induction fuel with
  | zero => intro s _; rfl
  | succ fuel ih =>
    intro s hp
    cases s with
    | nil => rfl
    | cons c rest =>
      have hpc : p ≠ c := fun he => hp (he ▸ List.mem_cons_self _ _)
      have hnp : ¬ ([p] ≠ [] ∧ List.isPrefixOf [p] (c :: rest) = true) := by
        rintro ⟨_, hpre⟩
        simp [List.isPrefixOf] at hpre
        exact hpc hpre
      show (if [p] ≠ [] ∧ List.isPrefixOf [p] (c :: rest) = true then
          rep ++ replaceSubAux [p] rep fuel ((c :: rest).drop [p].length)
        else c :: replaceSubAux [p] rep fuel rest) = c :: rest
      rw [if_neg hnp, ih rest (fun hm => hp (List.mem_cons_of_mem _ hm))]

theorem pyReplace_braille_id (s : String) (h : brailleBlank ∉ s.data) :
    pyReplace s "⠀" "" = s := by
  unfold pyReplace replaceSub
  rw [show ("⠀" : String).data = [brailleBlank] from rfl]
  rw [replaceSubAux_not_mem "".data (s.data.length + 1) s.data h]

theorem strip_concrete (mid rest : List Char) (hmid : noNlDash mid = true) :
    strip_frontmatter
      ⟨'-' :: '-' :: '-' :: '\n' ::
        (mid ++ ('\n' :: '-' :: '-' :: '-' :: '\n' :: rest))⟩ = ⟨rest⟩ := by
  unfold strip_frontmatter
  have hpre : List.isPrefixOf "---\n".data
      (String.data ⟨'-' :: '-' :: '-' :: '\n' ::
        (mid ++ ('\n' :: '-' :: '-' :: '-' :: '\n' :: rest))⟩) = true := by
    show List.isPrefixOf ['-', '-', '-', '\n'] ('-' :: '-' :: '-' :: '\n' ::
      (mid ++ ('\n' :: '-' :: '-' :: '-' :: '\n' :: rest))) = true
    simp [List.isPrefixOf]
  rw [if_pos hpre]
  have hfind : findSubFrom
      (String.data ⟨'-' :: '-' :: '-' :: '\n' ::
        (mid ++ ('\n' :: '-' :: '-' :: '-' :: '\n' :: rest))⟩)
      "\n---\n".data 4 = some (4 + mid.length) := by
    unfold findSubFrom
    have hdrop4 : (String.data ⟨'-' :: '-' :: '-' :: '\n' ::
        (mid ++ ('\n' :: '-' :: '-' :: '-' :: '\n' :: rest))⟩).drop 4 =
        mid ++ ('\n' :: '-' :: '-' :: '-' :: '\n' :: rest) := rfl
    rw [hdrop4]
    rw [findSubAux_append mid ('\n' :: '-' :: '-' :: '-' :: '\n' :: rest) 4
      (fun k hk hcon => no_close_in_mid ('-' :: '-' :: '-' :: '\n' :: rest)
        hmid k hk hcon)]
    refine findSubAux_of_isPrefixOf _ ?_
    show List.isPrefixOf ['\n', '-', '-', '-', '\n']
      ('\n' :: '-' :: '-' :: '-' :: '\n' :: rest) = true
    simp [List.isPrefixOf]
  rw [hfind]
  have hfinal : (String.data ⟨'-' :: '-' :: '-' :: '\n' ::
      (mid ++ ('\n' :: '-' :: '-' :: '-' :: '\n' :: rest))⟩).drop
      (4 + mid.length + 5) = rest := by
    have h1 : 4 + mid.length + 5 = (mid.length + 5) + 4 := by omega
    rw [h1]
    show (mid ++ ('\n' :: '-' :: '-' :: '-' :: '\n' :: rest)).drop
      (mid.length + 5) = rest
    rw [← List.drop_drop, List.drop_left]
    simp
  dsimp only
  rw [hfinal]
theorem fm_mid_noNlDash (bear_id : String) (created modified : Int)
    (archived pinned : Bool)
    (hid : ∀ c ∈ bear_id.data, c ≠ '\n') :
    noNlDash ("bear_id: " ++ bear_id ++ "\ncreated: " ++
      formatTimestamp created ++ "\nmodified: " ++ formatTimestamp modified ++
      "\narchived: " ++ boolStr archived ++ "\npinned: " ++
      boolStr pinned).data = true := by
  have hB5 : noNlDash ('\n' :: ("pinned: ".data ++ (boolStr pinned).data)) =
      true := by
    apply noNlDash_nlBlock
    · intro c hc
      rcases List.mem_append.1 hc with h | h
      · exact (by decide : ∀ c ∈ "pinned: ".data, c ≠ '\n') c h
      · exact boolStr_no_nl pinned c h
    · have hh : ("pinned: ".data ++ (boolStr pinned).data).head? =
        some 'p' := rfl
      rw [hh]
      decide
  have hB4 : noNlDash ('\n' :: ("archived: ".data ++ (boolStr archived).data)) =
      true := by
    apply noNlDash_nlBlock
    · intro c hc
      rcases List.mem_append.1 hc with h | h
      · exact (by decide : ∀ c ∈ "archived: ".data, c ≠ '\n') c h
      · exact boolStr_no_nl archived c h
    · have hh : ("archived: ".data ++ (boolStr archived).data).head? =
        some 'a' := rfl
      rw [hh]
      decide
  have hB3 : noNlDash ('\n' :: ("modified: ".data ++
      (formatTimestamp modified).data)) = true := by
    apply noNlDash_nlBlock
    · intro c hc
      rcases List.mem_append.1 hc with h | h
      · exact (by decide : ∀ c ∈ "modified: ".data, c ≠ '\n') c h
      · exact formatTimestamp_no_nl modified c h
    · have hh : ("modified: ".data ++ (formatTimestamp modified).data).head? =
        some 'm' := rfl
      rw [hh]
      decide
  have hB2 : noNlDash ('\n' :: ("created: ".data ++
      (formatTimestamp created).data)) = true := by
    apply noNlDash_nlBlock
    · intro c hc
      rcases List.mem_append.1 hc with h | h
      · exact (by decide : ∀ c ∈ "created: ".data, c ≠ '\n') c h
      · exact formatTimestamp_no_nl created c h
    · have hh : ("created: ".data ++ (formatTimestamp created).data).head? =
        some 'c' := rfl
      rw [hh]
      decide
  have hA : noNlDash ("bear_id: ".data ++ bear_id.data) = true := by
    apply noNlDash_of_no_nl
    intro c hc
    rcases List.mem_append.1 hc with h | h
    · exact (by decide : ∀ c ∈ "bear_id: ".data, c ≠ '\n') c h
    · exact hid c h
  have h45 := noNlDash_append hB4 hB5 (fun _ => by
    have hh : (('\n' :: ("pinned: ".data ++
      (boolStr pinned).data)) : List Char).head? = some '\n' := rfl
    rw [hh]
    decide)
  have h345 := noNlDash_append hB3 h45 (fun _ => by
    have hh : ((('\n' :: ("archived: ".data ++ (boolStr archived).data)) ++
      ('\n' :: ("pinned: ".data ++ (boolStr pinned).data))) :
        List Char).head? = some '\n' := rfl
    rw [hh]
    decide)
  have h2345 := noNlDash_append hB2 h345 (fun _ => by
    have hh : ((('\n' :: ("modified: ".data ++
        (formatTimestamp modified).data)) ++
      (('\n' :: ("archived: ".data ++ (boolStr archived).data)) ++
       ('\n' :: ("pinned: ".data ++ (boolStr pinned).data)))) :
        List Char).head? = some '\n' := rfl
    rw [hh]
    decide)
  have hall := noNlDash_append hA h2345 (fun _ => by
    have hh : ((('\n' :: ("created: ".data ++
        (formatTimestamp created).data)) ++
      (('\n' :: ("modified: ".data ++ (formatTimestamp modified).data)) ++
       (('\n' :: ("archived: ".data ++ (boolStr archived).data)) ++
        ('\n' :: ("pinned: ".data ++ (boolStr pinned).data))))) :
        List Char).head? = some '\n' := rfl
    rw [hh]
    decide)
  have hshape : ("bear_id: " ++ bear_id ++ "\ncreated: " ++
      formatTimestamp created ++ "\nmodified: " ++ formatTimestamp modified ++
      "\narchived: " ++ boolStr archived ++ "\npinned: " ++
      boolStr pinned).data =
      ("bear_id: ".data ++ bear_id.data) ++
      (('\n' :: ("created: ".data ++ (formatTimestamp created).data)) ++
       (('\n' :: ("modified: ".data ++ (formatTimestamp modified).data)) ++
        (('\n' :: ("archived: ".data ++ (boolStr archived).data)) ++
         ('\n' :: ("pinned: ".data ++ (boolStr pinned).data))))) := by
    simp only [strData_append, List.append_assoc, List.cons_append]
  rw [hshape]
  exact hall
theorem strip_build_roundtrip (bear_id : String) (created modified : Int)
    (archived pinned : Bool) (body : String)
    (hid : ∀ c ∈ bear_id.data, c ≠ '\n') :
    strip_frontmatter (build_frontmatter bear_id created modified archived
      pinned ++ body) = body := by
  have heq : build_frontmatter bear_id created modified archived pinned ++
      body =
      ⟨'-' :: '-' :: '-' :: '\n' ::
        (("bear_id: " ++ bear_id ++ "\ncreated: " ++
          formatTimestamp created ++ "\nmodified: " ++
          formatTimestamp modified ++ "\narchived: " ++ boolStr archived ++
          "\npinned: " ++ boolStr pinned).data ++
         ('\n' :: '-' :: '-' :: '-' :: '\n' :: body.data))⟩ := by
    apply String.ext
    show (build_frontmatter bear_id created modified archived pinned ++
      body).data = _
    simp only [build_frontmatter, strData_append, List.append_assoc,
      List.cons_append]
    simp
  rw [heq]
  have hres := strip_concrete
    ("bear_id: " ++ bear_id ++ "\ncreated: " ++ formatTimestamp created ++
      "\nmodified: " ++ formatTimestamp modified ++ "\narchived: " ++
      boolStr archived ++ "\npinned: " ++ boolStr pinned).data
    body.data
    (fm_mid_noNlDash bear_id created modified archived pinned hid)
  exact hres
/-- C5 (amended): converting a body to the destination format and back
recovers it — provided the body contains no U+2800 braille blank (the
conversion deletes those characters, so the original claim fails on
bodies containing them) and the note id contains no newline.  With no
attachment map, `strip_frontmatter` inverts `bear_to_obsidian`. -/
theorem c5_round_trip_requires_no_braille (body bear_id : String)
    (created modified : Int) (archived pinned : Bool)
    (hid : ∀ c ∈ bear_id.data, c ≠ '\n')
    (hb : brailleBlank ∉ body.data) :
    strip_frontmatter (bear_to_obsidian body bear_id created modified
      archived pinned none) = body := by
  show strip_frontmatter (build_frontmatter bear_id created modified archived
    pinned ++ pyReplace body "⠀" "") = body
  rw [pyReplace_braille_id body hb]
  exact strip_build_roundtrip bear_id created modified archived pinned body
    hid

theorem c5_round_trip_requires_no_braille_witness :
    brailleBlank ∉ "hello\nworld".data ∧
    strip_frontmatter (bear_to_obsidian "hello\nworld" "abc123" 0 0 false
      false none) = "hello\nworld" :=
  ⟨by decide, c5_round_trip_requires_no_braille "hello\nworld" "abc123" 0 0
    false false (by decide) (by decide)⟩

/-- C5 counterexample to the original claim: a body consisting of one
braille-blank spacer is deleted by the conversion and not restored, so
the round trip does not recover it. -/
theorem c5_round_trip_counterexample :
    strip_frontmatter (bear_to_obsidian "⠀" "id" 0 0 false false none) ≠
      "⠀" := by decide
/-- One iteration of the push loop with the per-note file read made
fallible: `fp.read_text(encoding="utf-8")` (pusher.py line 72) runs
outside the per-note `try` (lines 83-107), so when the read raises
(invalid UTF-8, a permission error after the `exists()` check), the
exception propagates and the run aborts — modelled as `Except.error`.
The read happens before the dry-run check, so a dry run aborts too. -/
def pushStepE (hash : String → String) (readFails : String → Bool)
    (env : SyncEnv) (files : SMap String) (dry_run : Bool)
    (acc : Except String PushAcc) (bid : String) : Except String PushAcc :=
  match acc with
  | .error e => .error e
  | .ok acc =>
    match SMap.lookup acc.state bid with
    | none => .ok acc
    | some ns =>
      match SMap.lookup files (pathJoin env.vault ns.file_path) with
      | none => .ok ⟨acc.state, acc.pushed,
          acc.errors ++ ["File missing: " ++ ns.file_path], acc.calls⟩
      | some obsidian_content =>
        if readFails (pathJoin env.vault ns.file_path) then
          .error ("read failed: " ++ ns.file_path)
        else if dry_run then
          .ok ⟨acc.state, acc.pushed + 1, acc.errors, acc.calls⟩
        else
          let calls1 := acc.calls ++
            [(bid, strip_frontmatter obsidian_content)]
          if env.pushOk bid then
            match env.reread bid with
            | some updated_text =>
              .ok ⟨set_note acc.state bid ns.file_path (hash updated_text)
                  (hash obsidian_content),
                acc.pushed + 1, acc.errors, calls1⟩
            | none =>
              .ok ⟨acc.state, acc.pushed,
                acc.errors ++ ["Verify failed for: " ++
                  pushTitle env bid ns.file_path], calls1⟩
          else
            .ok ⟨acc.state, acc.pushed,
              acc.errors ++ ["Push " ++ pushTitle env bid ns.file_path ++
                ": error"], calls1⟩

/-- `push_changes` with the fallible per-note file read: an uncaught
read failure aborts the run before `state.save()` (pusher.py line 109)
ever runs — nothing is persisted and no stats dict is returned. -/
def push_changesE (hash : String → String) (readFails : String → Bool)
    (env : SyncEnv) (state0 : SMap NoteState) (files : SMap String)
    (dry_run : Bool) : Except String PushResult :=
  let changes := detect_changes state0
    (env.notes.map (fun n => (n.uuid, hash n.text)))
    (obsHashesOf hash env.vault state0 files)
  match changes.obsidian_changed.foldl
      (pushStepE hash readFails env files dry_run)
      (.ok ⟨state0, 0, [], []⟩) with
  | .error e => .error e
  | .ok acc =>
    .ok ⟨acc.state, acc.pushed, changes.conflicts.length, 0, acc.errors,
      acc.calls, some (serializeState acc.state)⟩

theorem pushStepE_no_readfail (hash : String → String)
    (readFails : String → Bool) (env : SyncEnv) (files : SMap String)
    (dry_run : Bool) (hnoread : ∀ p, readFails p = false)
    (acc : PushAcc) (bid : String) :
    pushStepE hash readFails env files dry_run (.ok acc) bid =
      Except.ok (pushStep hash env files dry_run acc bid) := by
  cases hns : SMap.lookup acc.state bid with
  | none => simp [pushStepE, pushStep, hns]
  | some ns =>
    cases hc : SMap.lookup files (pathJoin env.vault ns.file_path) with
    | none => simp [pushStepE, pushStep, hns, hc]
    | some content =>
      by_cases hdry : dry_run = true
      · simp [pushStepE, pushStep, hns, hc, hnoread, hdry]
      · by_cases hok : env.pushOk bid = true
        · cases hr : env.reread bid with
          | some u =>
            simp [pushStepE, pushStep, hns, hc, hnoread, hdry, hok, hr]
          | none =>
            simp [pushStepE, pushStep, hns, hc, hnoread, hdry, hok, hr]
        · simp [pushStepE, pushStep, hns, hc, hnoread, hdry, hok]

theorem pushStepE_cases (hash : String → String) (readFails : String → Bool)
    (env : SyncEnv) (files : SMap String) (dry_run : Bool) (acc : PushAcc)
    (bid : String) :
    (∃ e, pushStepE hash readFails env files dry_run (.ok acc) bid =
      Except.error e) ∨
    pushStepE hash readFails env files dry_run (.ok acc) bid =
      Except.ok (pushStep hash env files dry_run acc bid) := by
  cases hns : SMap.lookup acc.state bid with
  | none => exact Or.inr (by simp [pushStepE, pushStep, hns])
  | some ns =>
    cases hc : SMap.lookup files (pathJoin env.vault ns.file_path) with
    | none => exact Or.inr (by simp [pushStepE, pushStep, hns, hc])
    | some content =>
      by_cases hrf : readFails (pathJoin env.vault ns.file_path) = true
      · exact Or.inl ⟨"read failed: " ++ ns.file_path,
          by simp [pushStepE, hns, hc, hrf]⟩
      · rw [Bool.not_eq_true] at hrf
        right
        by_cases hdry : dry_run = true
        · simp [pushStepE, pushStep, hns, hc, hrf, hdry]
        · by_cases hok : env.pushOk bid = true
          · cases hr : env.reread bid with
            | some u =>
              simp [pushStepE, pushStep, hns, hc, hrf, hdry, hok, hr]
            | none =>
              simp [pushStepE, pushStep, hns, hc, hrf, hdry, hok, hr]
          · simp [pushStepE, pushStep, hns, hc, hrf, hdry, hok]

theorem pushStepE_aborts (hash : String → String) (readFails : String → Bool)
    (env : SyncEnv) (files : SMap String) (dry_run : Bool) (acc : PushAcc)
    (bid : String) (ns : NoteState) (content : String)
    (hns : SMap.lookup acc.state bid = some ns)
    (hfile : SMap.lookup files (pathJoin env.vault ns.file_path) =
      some content)
    (hrf : readFails (pathJoin env.vault ns.file_path) = true) :
    pushStepE hash readFails env files dry_run (.ok acc) bid =
      Except.error ("read failed: " ++ ns.file_path) := by
  simp [pushStepE, hns, hfile, hrf]

theorem foldl_pushStepE_error (hash : String → String)
    (readFails : String → Bool) (env : SyncEnv) (files : SMap String)
    (dry_run : Bool) :
    ∀ (bids : List String) (e : String),
      bids.foldl (pushStepE hash readFails env files dry_run) (.error e) =
        .error e := by
  intro bids
  induction bids with
  | nil => intro e; rfl
  | cons b rest ih =>
    intro e
    rw [List.foldl_cons]
    exact ih e

theorem foldl_pushStepE_no_readfail (hash : String → String)
    (readFails : String → Bool) (env : SyncEnv) (files : SMap String)
    (dry_run : Bool) (hnoread : ∀ p, readFails p = false) :
    ∀ (bids : List String) (acc : PushAcc),
      bids.foldl (pushStepE hash readFails env files dry_run) (.ok acc) =
        .ok (bids.foldl (pushStep hash env files dry_run) acc) := by
  intro bids
  induction bids with
  | nil => intro acc; rfl
  | cons b rest ih =>
    intro acc
    rw [List.foldl_cons, List.foldl_cons,
      pushStepE_no_readfail hash readFails env files dry_run hnoread acc b]
    exact ih (pushStep hash env files dry_run acc b)

theorem pushStep_lookup (hash : String → String) (env : SyncEnv)
    (files : SMap String) (dry_run : Bool) (acc : PushAcc) (b cid : String)
    (hne : b ≠ cid) :
    SMap.lookup (pushStep hash env files dry_run acc b).state cid =
      SMap.lookup acc.state cid := by
  cases hns : SMap.lookup acc.state b with
  | none => simp [pushStep, hns]
  | some ns =>
    cases hc : SMap.lookup files (pathJoin env.vault ns.file_path) with
    | none => simp [pushStep, hns, hc]
    | some content =>
      by_cases hdry : dry_run = true
      · simp [pushStep, hns, hc, hdry]
      · by_cases hok : env.pushOk b = true
        · cases hr : env.reread b with
          | some u =>
            simp [pushStep, hns, hc, hdry, hok, hr, set_note,
              SMap.lookup_upsert, hne]
          | none => simp [pushStep, hns, hc, hdry, hok, hr]
        · simp [pushStep, hns, hc, hdry, hok]

theorem foldl_pushStepE_aborts (hash : String → String)
    (readFails : String → Bool) (env : SyncEnv) (files : SMap String)
    (dry_run : Bool) (ns : NoteState) (content : String) :
    ∀ (bids : List String) (acc : PushAcc) (bid : String), bid ∈ bids →
      bids.Nodup →
      SMap.lookup acc.state bid = some ns →
      SMap.lookup files (pathJoin env.vault ns.file_path) = some content →
      readFails (pathJoin env.vault ns.file_path) = true →
      ∃ e, bids.foldl (pushStepE hash readFails env files dry_run)
        (.ok acc) = .error e := by
  intro bids
  induction bids with
  | nil => intro acc bid h; simp at h
  | cons b rest ih =>
    intro acc bid hmem hnod hns hfile hrf
    rw [List.foldl_cons]
    rcases List.mem_cons.1 hmem with rfl | hmem'
    · rw [pushStepE_aborts hash readFails env files dry_run acc bid ns
        content hns hfile hrf]
      exact ⟨_, foldl_pushStepE_error hash readFails env files dry_run
        rest _⟩
    · have hbne : b ≠ bid := fun he =>
        ((List.nodup_cons.1 hnod).1) (he ▸ hmem')
      rcases pushStepE_cases hash readFails env files dry_run acc b with
        ⟨e, he⟩ | hok
      · rw [he]
        exact ⟨e, foldl_pushStepE_error hash readFails env files dry_run
          rest e⟩
      · rw [hok]
        exact ih (pushStep hash env files dry_run acc b) bid hmem'
          (List.nodup_cons.1 hnod).2
          (by rw [pushStep_lookup hash env files dry_run acc b bid hbne]
              exact hns)
          hfile hrf

theorem push_changesE_no_readfail (hash : String → String)
    (readFails : String → Bool) (env : SyncEnv) (state0 : SMap NoteState)
    (files : SMap String) (dry_run : Bool)
    (hnoread : ∀ p, readFails p = false) :
    push_changesE hash readFails env state0 files dry_run =
      Except.ok (push_changes hash env state0 files dry_run) := by
  unfold push_changesE push_changes
  dsimp only
  rw [foldl_pushStepE_no_readfail hash readFails env files dry_run hnoread]

theorem push_changesE_aborts (hash : String → String)
    (readFails : String → Bool) (env : SyncEnv) (state0 : SMap NoteState)
    (files : SMap String) (dry_run : Bool) (bid : String) (ns : NoteState)
    (content : String)
    (hmem : bid ∈ (detect_changes state0
      (env.notes.map (fun n => (n.uuid, hash n.text)))
      (obsHashesOf hash env.vault state0 files)).obsidian_changed)
    (hns : SMap.lookup state0 bid = some ns)
    (hfile : SMap.lookup files (pathJoin env.vault ns.file_path) =
      some content)
    (hrf : readFails (pathJoin env.vault ns.file_path) = true) :
    ∃ e, push_changesE hash readFails env state0 files dry_run =
      Except.error e := by
  obtain ⟨e, he⟩ := foldl_pushStepE_aborts hash readFails env files dry_run
    ns content
    (detect_changes state0 (env.notes.map (fun n => (n.uuid, hash n.text)))
      (obsHashesOf hash env.vault state0 files)).obsidian_changed
    ⟨state0, 0, [], []⟩ bid hmem
    (detect_obsidian_changed_nodup state0
      (env.notes.map (fun n => (n.uuid, hash n.text)))
      (obsHashesOf hash env.vault state0 files))
    hns hfile hrf
  refine ⟨e, ?_⟩
  unfold push_changesE
  dsimp only
  rw [he]
/-- C8 (amended): in `export_all` every per-note failure is caught and
recorded as an error naming the note while every other note's update
still lands, and the store is persisted holding exactly the successful
updates.  In `push_changes` the same holds for the failures inside the
per-note `try` (write-back failure, verification failure) — but only
as long as no per-note file read fails: the read at pusher.py line 72
sits outside the `try`, so a read failure on any destination-changed
note aborts the whole run uncaught and `state.save()` never runs,
contradicting the original claim for that failure class. -/
theorem c8_per_note_errors_caught_except_push_read (hash : String → String)
    (readFails : String → Bool) (env : SyncEnv) (state0 : SMap NoteState)
    (files0 files : SMap String) (dry_run : Bool) :
    ((export_all hash env state0 files0).errors =
      planErrors (exportPlan hash env)) ∧
    (∀ it ∈ exportPlan hash env, it.fails = true →
      (it.title ++ ": write error") ∈
        (export_all hash env state0 files0).errors) ∧
    ((export_all hash env state0 files0).state =
      SMap.applyAll state0 (planUpdates (exportPlan hash env))) ∧
    ((export_all hash env state0 files0).saveDoc =
      some (serializeState
        (SMap.applyAll state0 (planUpdates (exportPlan hash env))))) ∧
    ((∀ p, readFails p = false) →
      push_changesE hash readFails env state0 files dry_run =
        Except.ok (push_changes hash env state0 files dry_run)) ∧
    ((push_changes hash env state0 files dry_run).errors =
      (detect_changes state0 (env.notes.map (fun n => (n.uuid, hash n.text)))
        (obsHashesOf hash env.vault state0 files)).obsidian_changed.foldr
        (fun b l => (pushPlanItem hash env files state0 dry_run b).errs ++ l)
        []) ∧
    ((push_changes hash env state0 files dry_run).state =
      SMap.applyAll state0
        ((detect_changes state0 (env.notes.map (fun n => (n.uuid, hash n.text)))
          (obsHashesOf hash env.vault state0 files)).obsidian_changed.filterMap
          (fun b => (pushPlanItem hash env files state0 dry_run b).upd))) ∧
    ((push_changes hash env state0 files dry_run).saveDoc =
      some (serializeState
        (push_changes hash env state0 files dry_run).state)) ∧
    (∀ bid ns content,
      bid ∈ (detect_changes state0
        (env.notes.map (fun n => (n.uuid, hash n.text)))
        (obsHashesOf hash env.vault state0 files)).obsidian_changed →
      SMap.lookup state0 bid = some ns →
      SMap.lookup files (pathJoin env.vault ns.file_path) = some content →
      readFails (pathJoin env.vault ns.file_path) = true →
      ∃ e, push_changesE hash readFails env state0 files dry_run =
        Except.error e) := by
  have hexp := export_fold_spec hash env env.notes
    ⟨state0, files0, [], 0, 0, [], []⟩
  dsimp only at hexp
  have herr : (export_all hash env state0 files0).errors =
      planErrors (exportPlan hash env) := by
    rw [export_all_errors, hexp.2.1, List.nil_append]
    rfl
  have hnod := detect_obsidian_changed_nodup state0
    (env.notes.map (fun n => (n.uuid, hash n.text)))
    (obsHashesOf hash env.vault state0 files)
  have hfold := push_fold_spec hash env files dry_run state0
    (detect_changes state0 (env.notes.map (fun n => (n.uuid, hash n.text)))
      (obsHashesOf hash env.vault state0 files)).obsidian_changed
    ⟨state0, 0, [], []⟩ hnod (fun _ _ => rfl)
  refine ⟨herr, ?_, ?_, ?_, ?_, ?_, ?_, ?_, ?_⟩
  · intro it hit hfails
    rw [herr]
    unfold planErrors
    exact List.mem_filterMap.2 ⟨it, hit, by rw [if_pos hfails]⟩
  · rw [export_all_state]
    exact hexp.1
  · rw [export_all_saveDoc, export_all_state]
    rw [hexp.1]
    rfl
  · intro hnoread
    exact push_changesE_no_readfail hash readFails env state0 files dry_run
      hnoread
  · rw [push_changes_errors, hfold.2.1, List.nil_append]
  · rw [push_changes_state, hfold.1]
  · rw [push_changes_saveDoc]
  · intro bid ns content hmem hns hfile hrf
    exact push_changesE_aborts hash readFails env state0 files dry_run bid
      ns content hmem hns hfile hrf

def c8EnvW : SyncEnv :=
  ⟨"v", [⟨"b1", "T", "old", 0, 0, false, false, [], []⟩], [],
   fun _ => false, fun _ => some "new", fun _ => true⟩

def c8StateW : SMap NoteState := [("b1", ⟨"b1", "n.md", "old", "x"⟩)]

def c8FilesW : SMap String := [("v/n.md", "body")]

theorem c8_per_note_errors_caught_except_push_read_witness :
    (∀ p : String, (fun _ : String => false) p = false) ∧
    push_changesE (fun s => s) (fun _ => false) c8EnvW c8StateW c8FilesW
      false =
      Except.ok (push_changes (fun s => s) c8EnvW c8StateW c8FilesW false) :=
  ⟨fun _ => rfl,
   (c8_per_note_errors_caught_except_push_read (fun s => s) (fun _ => false)
     c8EnvW c8StateW c8FilesW c8FilesW false).2.2.2.2.1 (fun _ => rfl)⟩

/-- C8 counterexample to the original claim: a concrete run with one
destination-changed note whose file read fails aborts without
recording the failure in an error list and without persisting the
store — `push_changesE` returns `Except.error`, not a result. -/
theorem c8_uncaught_read_failure_counterexample :
    push_changesE (fun s => s) (fun _ => true) c8EnvW c8StateW c8FilesW
      false = Except.error "read failed: n.md" := rfl
